import Mathlib

/-!
Verification of the checkpoint persistence subsystem (`src/checkpoint.py`).

The embedding models:
- decimal printing of Python integers (used by f-strings) and Python `int()`
  parsing of strings (used by `mlx.utils.tree_unflatten` to decide
  list-vs-dict nodes and to order list indices);
- `mlx.utils.tree_flatten` / `tree_unflatten` over nested Python trees of
  dicts, lists and numeric-array leaves.  Dotted path strings such as
  `"layer.3.m"` are modelled as segment lists `["layer", "3", "m"]`; on
  well-formed trees (dict keys nonempty, dot-free) joining segments with `"."`
  is injective, so the segment model is exact;
- the checkpoint directory layout: a checkpoint root is `none` (the root
  directory does not exist) or a list of named entries (files or checkpoint
  directories) in `os.listdir` enumeration order; each checkpoint directory
  carries its three optional artifacts (`model_weights.safetensors`,
  `optimizer_state.npz`, `metadata.npz`), a metadata file being either
  readable or corrupt (`mx.load` raises on a corrupt file);
- `save_checkpoint`, as an interpreted script of primitive filesystem
  operations (so that the write *order* of the artifacts is a statement about
  the program, not only its final state);
- `load_checkpoint`, with the mutation of the model / optimizer / data-loader
  arguments made explicit by state passing, and Python exceptions modelled by
  `Except`.
-/

namespace Ckpt

/-! ## Python decimal printing and `int()` parsing of strings -/

/-- The ASCII digit character for `d < 10`. -/
def digitChar (d : Nat) : Char := Char.ofNat (48 + d)

/-- Decimal digit string of a natural number, as written by a Python f-string
(`f"checkpoint_step_{step}"`, `f"{prefix}.{i}"`). -/
def natDigits (n : Nat) : List Char :=
  if _h : n < 10 then [digitChar n]
  else natDigits (n / 10) ++ [digitChar (n % 10)]
  termination_by n
  decreasing_by exact Nat.div_lt_self (by omega) (by omega)

/-- Decimal string of a Python integer (`f"{i}"`). -/
def intChars (i : Int) : List Char :=
  if i < 0 then '-' :: natDigits (-i).toNat else natDigits i.toNat

/-- Value of a digits-and-underscores literal, underscores skipped
(Python `int("1_0") = 10`). -/
def digitsVal (cs : List Char) : Nat :=
  cs.foldl (fun a c => if c = '_' then a else a * 10 + (c.toNat - 48)) 0

/-- After the first character of a Python integer literal core: digits,
with single underscores allowed only between digits. -/
def digitsRest : List Char → Bool
  | [] => true
  | c :: rest =>
    if c = '_' then
      match rest with
      | [] => false
      | c' :: rest' => c'.isDigit && digitsRest rest'
    else c.isDigit && digitsRest rest

/-- Core of a Python integer literal (after sign stripping): nonempty, starts
with a digit, underscores single and between digits. -/
def digitsCore : List Char → Bool
  | [] => false
  | c :: rest => c.isDigit && digitsRest rest

/-- Python `str.strip()` of surrounding whitespace, as done by `int()`. -/
def stripWS (cs : List Char) : List Char :=
  ((cs.dropWhile Char.isWhitespace).reverse.dropWhile Char.isWhitespace).reverse

/-- Sign handling of Python `int()` on a stripped, nonempty literal. -/
def pyParseSigned (c : Char) (rest : List Char) : Option Int :=
  if c = '+' then if digitsCore rest then some (digitsVal rest : Int) else none
  else if c = '-' then
    if digitsCore rest then some (-(digitsVal rest : Int)) else none
  else if digitsCore (c :: rest) then some (digitsVal (c :: rest) : Int)
  else none

/-- Model of Python `int(s)` on a string: strip whitespace, optional sign,
then a digit core; `none` when `int()` would raise `ValueError`. -/
def pyParseInt (s : String) : Option Int :=
  match stripWS s.data with
  | [] => none
  | c :: rest => pyParseSigned c rest

/-! ## The nested optimizer-state tree and `mlx.utils` tree flattening

`optimizer.state` is a nested Python structure of dicts, lists and
numeric-array leaves.  Leaf arrays are opaque to the checkpoint subsystem and
are modelled by `Int` stand-ins. -/

/-- A nested Python tree: numeric-array leaf, list node, or dict node (dicts
keep insertion order, modelled by the list order of the key-value pairs). -/
inductive PyTree where
  | leaf (v : Int)
  | listNode (ts : List PyTree)
  | dictNode (kvs : List (String × PyTree))

/-- A dotted path string, as its list of `"."`-separated segments. -/
abbrev Key := List String

/-- Flat entries produced by `tree_flatten`: path plus leaf value. -/
abbrev FlatEntry := Key × Int

/-- Decimal string of a natural number (a Python list index in an f-string). -/
def strN (n : Nat) : String := String.mk (natDigits n)

/-- Prepend a path segment to every entry of a flattened subtree. -/
def prefixEntries (k : String) (g : List FlatEntry) : List FlatEntry :=
  g.map (fun e => (k :: e.1, e.2))

mutual

/-- Model of `mlx.utils.tree_flatten`: depth-first walk producing
`(dotted-path, leaf)` pairs, list children keyed by their decimal index,
dict children by their key. -/
def tree_flatten : PyTree → List FlatEntry
  | .leaf v => [([], v)]
  | .listNode ts => flattenListFrom 0 ts
  | .dictNode kvs => flattenDict kvs

/-- Flatten the tail of a list node, children numbered from `i`. -/
def flattenListFrom (i : Nat) : List PyTree → List FlatEntry
  | [] => []
  | t :: ts =>
    prefixEntries (strN i) (tree_flatten t) ++ flattenListFrom (i + 1) ts

/-- Flatten the entries of a dict node. -/
def flattenDict : List (String × PyTree) → List FlatEntry
  | [] => []
  | (k, t) :: kvs => prefixEntries k (tree_flatten t) ++ flattenDict kvs

end

/-- Flat entries of a list of named, already-flattened blocks (the shape of
`tree_flatten` at a container node). -/
def blocksEntries (blocks : List (String × List FlatEntry)) : List FlatEntry :=
  blocks.flatMap (fun b => prefixEntries b.1 b.2)

mutual

/-- Nesting depth of a tree; the recursion depth `tree_unflatten` needs on
its flattening. -/
def treeDepth : PyTree → Nat
  | .leaf _ => 1
  | .listNode ts => 1 + depthForest ts
  | .dictNode kvs => 1 + depthDict kvs

/-- Maximal depth of the trees of a list node. -/
def depthForest : List PyTree → Nat
  | [] => 0
  | t :: ts => max (treeDepth t) (depthForest ts)

/-- Maximal depth of the trees of a dict node. -/
def depthDict : List (String × PyTree) → Nat
  | [] => 0
  | kv :: kvs => max (treeDepth kv.2) (depthDict kvs)

end

/-- Structural induction over the nested tree type. -/
theorem PyTree.inductionOn (motive : PyTree → Prop)
    (hleaf : ∀ v, motive (.leaf v))
    (hlist : ∀ ts, (∀ t ∈ ts, motive t) → motive (.listNode ts))
    (hdict : ∀ kvs, (∀ kv ∈ kvs, motive kv.2) → motive (.dictNode kvs)) :
    ∀ t, motive t
  | .leaf v => hleaf v
  | .listNode ts => hlist ts (fun t ht =>
      have _hm := ht
      PyTree.inductionOn motive hleaf hlist hdict t)
  | .dictNode kvs => hdict kvs (fun kv hkv =>
      have _hm := hkv
      PyTree.inductionOn motive hleaf hlist hdict kv.2)
  termination_by t => sizeOf t
  decreasing_by
  · have h1 := List.sizeOf_lt_of_mem ht
    simp only [PyTree.listNode.sizeOf_spec]
    omega
  · have h1 := List.sizeOf_lt_of_mem hkv
    have h2 : sizeOf kv.2 < sizeOf kv := by
      obtain ⟨a, b⟩ := kv; simp
    simp only [PyTree.dictNode.sizeOf_spec]
    omega

mutual

/-- Well-formedness of an optimizer-state tree, the domain on which
`mlx.utils` flattening round-trips: containers are nonempty, dict keys are
pairwise distinct, nonempty, dot-free and not parseable as Python ints. -/
def wfTree : PyTree → Bool
  | .leaf _ => true
  | .listNode ts => !ts.isEmpty && wfForest ts
  | .dictNode kvs =>
    !kvs.isEmpty &&
    (kvs.map Prod.fst).Nodup &&
    kvs.all (fun kv =>
      kv.1 ≠ "" && !(kv.1.data.contains '.') && (pyParseInt kv.1).isNone) &&
    wfDict kvs

/-- All trees of a list node are well-formed. -/
def wfForest : List PyTree → Bool
  | [] => true
  | t :: ts => wfTree t && wfForest ts

/-- All trees of a dict node are well-formed. -/
def wfDict : List (String × PyTree) → Bool
  | [] => true
  | kv :: kvs => wfTree kv.2 && wfDict kvs

end

/-! ## Model of `mlx.utils.tree_unflatten`

`tree_unflatten` raises on some inputs (e.g. the empty list); failure is
modelled by `none`.  Its recursion strips one path segment per level, so a
fuel of (maximal path length + 1) makes the fueled model total while agreeing
with the real recursion wherever the latter terminates. -/

/-- First segment and remainder of a path; the empty path behaves like the
dotted string `""`, whose first split segment is `""`. -/
def splitHead : Key → String × Key
  | [] => ("", [])
  | s :: rest => (s, rest)

/-- The keys of a list, first occurrence only, in first-occurrence order
(the iteration order of a Python `defaultdict` filled by a scan). -/
def uniqKeys : List String → List String
  | [] => []
  | k :: ks => k :: uniqKeys (ks.filter (fun k' => k' ≠ k))
  termination_by l => l.length
  decreasing_by
    have := List.length_filter_le (fun k' => decide (k' ≠ k)) ks
    simp only [List.length_cons]; omega

/-- Leading path segment of a flat entry. -/
def headKey (e : FlatEntry) : String := (splitHead e.1).1

/-- The entries contributed to child `k`: those whose leading segment is `k`,
in order, with the leading segment stripped. -/
def childEntriesFor (l : List FlatEntry) (k : String) : List FlatEntry :=
  l.filterMap (fun e =>
    if (splitHead e.1).1 = k then some ((splitHead e.1).2, e.2) else none)

/-- Group flat entries by the first segment of their path, in
first-occurrence order, each group keeping its entries' order; the grouped
entries have the leading segment stripped.  Models the `defaultdict` loop of
`tree_unflatten`. -/
def groupChildren (l : List FlatEntry) : List (String × List FlatEntry) :=
  (uniqKeys (l.map headKey)).map (fun k => (k, childEntriesFor l k))

/-- Comparison used by Python `sorted` on `(int(idx), idx)` pairs. -/
def pairLt (a b : Int × String) : Bool := a.1 < b.1 || (a.1 = b.1 && a.2 < b.2)

/-- Stable insertion into an ascending list (Python `sorted` is stable). -/
def insertAsc (x : Int × String × List FlatEntry) :
    List (Int × String × List FlatEntry) → List (Int × String × List FlatEntry)
  | [] => [x]
  | y :: ys =>
    if pairLt (y.1, y.2.1) (x.1, x.2.1) then y :: insertAsc x ys else x :: y :: ys

/-- Stable ascending sort of `(int(idx), idx, group)` triples, modelling
`sorted((int(idx), idx) for idx in children.keys())`. -/
def sortAsc : List (Int × String × List FlatEntry) → List (Int × String × List FlatEntry)
  | [] => []
  | x :: xs => insertAsc x (sortAsc xs)

/-- `int(idx)` on every child key, modelling
`(int(idx), idx) for idx in children.keys()`: `none` when any key fails to
parse (Python raises `ValueError`). -/
def parseAll : List (String × List FlatEntry) →
    Option (List (Int × String × List FlatEntry))
  | [] => some []
  | c :: cs =>
    match pyParseInt c.1 with
    | some i =>
      match parseAll cs with
      | some rest => some ((i, c.1, c.2) :: rest)
      | none => none
    | none => none

mutual

/-- Model of `mlx.utils.tree_unflatten`, fueled (see section comment).
Mirrors the source: a single entry with the empty path is a leaf; otherwise
group entries by leading segment; if the first leading segment parses as an
int, rebuild a list (indices sorted, gaps filled with empty dicts), else
rebuild a dict. -/
def tree_unflatten_fuel : Nat → List FlatEntry → Option PyTree
  | _, [] => none
  | 0, _ :: _ => none
  | fuel + 1, e :: rest =>
    if e.1 = [] ∧ rest = [] then some (.leaf e.2)
    else
      let l := e :: rest
      let children := groupChildren l
      if (pyParseInt (splitHead e.1).1).isSome then
        match parseAll children with
        | some pairs => (buildPyList fuel [] (sortAsc pairs)).map .listNode
        | none => none
      else
        (buildPyDict fuel children).map .dictNode

/-- The list-rebuilding loop of `tree_unflatten`: walk the sorted
`(index, key, group)` triples, padding index gaps with empty dicts. -/
def buildPyList (fuel : Nat) (acc : List PyTree) :
    List (Int × String × List FlatEntry) → Option (List PyTree)
  | [] => some acc
  | (i, _, g) :: rest =>
    let acc := acc ++ List.replicate (i - (acc.length : Int)).toNat (.dictNode [])
    match tree_unflatten_fuel fuel g with
    | some t => buildPyList fuel (acc ++ [t]) rest
    | none => none

/-- The dict-rebuilding comprehension of `tree_unflatten`. -/
def buildPyDict (fuel : Nat) :
    List (String × List FlatEntry) → Option (List (String × PyTree))
  | [] => some []
  | (k, g) :: rest =>
    match tree_unflatten_fuel fuel g with
    | some t =>
      match buildPyDict fuel rest with
      | some r => some ((k, t) :: r)
      | none => none
    | none => none

end

/-- Fuel sufficient for `tree_unflatten_fuel` on `l` (one level of recursion
strips one segment from every path). -/
def unflattenFuel (l : List FlatEntry) : Nat :=
  l.foldl (fun a e => max a e.1.length) 0 + 1

/-- Model of `mlx.utils.tree_unflatten`. -/
def tree_unflatten (l : List FlatEntry) : Option PyTree :=
  tree_unflatten_fuel (unflattenFuel l) l

/-- Python `dict(pairs)`: first-occurrence key order, last-occurrence value.
`save_checkpoint` applies it to the flat optimizer state before `mx.savez`. -/
def pyDict (l : List FlatEntry) : List FlatEntry :=
  l.foldl (fun acc e =>
    if acc.any (fun x => x.1 = e.1)
    then acc.map (fun x => if x.1 = e.1 then (x.1, e.2) else x)
    else acc ++ [e]) []

/-! ## Collaborator state: model, optimizer, data loader -/

/-- Model parameters, an opaque blob owned by the model component
(`model.save_weights` writes it, `model.load_weights` replaces it). -/
abbrev Weights := List (String × Int)

/-- The model instance passed to save/load. -/
structure Model where
  weights : Weights

/-- The optimizer instance: its `.state` is a nested tree. -/
structure Optimizer where
  state : PyTree

/-- An opaque token buffer. -/
abbrev Tokens := List Int

/-- The data loader instance: current shard index, intra-shard position,
the shard-file list, and the in-memory token buffer of the current shard. -/
structure DataLoader where
  current_shard : Int
  current_position : Int
  shards : List String
  tokens : Tokens

/-- The `{"shard": .., "position": ..}` record returned by
`load_checkpoint`. -/
structure LoaderState where
  shard : Int
  position : Int
deriving DecidableEq

/-! ## The checkpoint directory layout -/

/-- Content of a `metadata.npz` archive, keyed mapping modelled by its three
observed fields (`metadata["step"]`, membership tests of `"data_shard"` and
`"data_position"`); a field is `none` when its key is absent. -/
structure MetaData where
  step : Option Int
  data_shard : Option Int
  data_position : Option Int
deriving DecidableEq

/-- A metadata file on disk: readable, or corrupt (`mx.load` raises). -/
inductive MetaFile where
  | good (m : MetaData)
  | corrupt
deriving DecidableEq

/-- One subdirectory of the checkpoint root with its three optional
artifacts. -/
structure CkptDir where
  name : String
  model_weights : Option Weights
  optimizer_state : Option (List FlatEntry)
  metadata : Option MetaFile

/-- An immediate entry of the checkpoint root: a plain file (skipped by the
`os.path.isdir` test) or a checkpoint directory. -/
inductive RootEntry where
  | file (name : String)
  | dir (d : CkptDir)

/-- Name of a root entry. -/
def entryName : RootEntry → String
  | .file n => n
  | .dir d => d.name

/-- The checkpoint root: `none` when the directory does not exist, else its
entries in `os.listdir` enumeration order. -/
abbrev FS := Option (List RootEntry)

/-! ## `save_checkpoint` (`src/checkpoint.py` lines 10-36)

The write is modelled as a script of primitive filesystem operations run in
source order, so that the order in which the artifacts are written is itself
part of the embedding (spec section 5's metadata-last discipline). -/

/-- One artifact of a checkpoint directory. -/
inductive Artifact where
  | model_weights (w : Weights)
  | optimizer_state (s : List FlatEntry)
  | metadata (m : MetaData)
deriving DecidableEq

/-- `f"checkpoint_step_{step}"` or `"final"` (line 12). -/
def checkpointName (is_final : Bool) (step : Int) : String :=
  if is_final then "final" else "checkpoint_step_" ++ String.mk (intChars step)

/-- `os.makedirs(path, exist_ok=True)` (line 14): an existing directory is
kept as is, an existing plain file raises, otherwise the directory (and the
root, if missing) is created. -/
def makedirs (root : List RootEntry) (name : String) : Except String (List RootEntry) :=
  match root.find? (fun e => entryName e = name) with
  | some (.dir _) => .ok root
  | some (.file _) => .error "FileExistsError"
  | none => .ok (root ++ [.dir ⟨name, none, none, none⟩])

/-- Store an artifact into a checkpoint directory, overwriting the previous
file of that name. -/
def setArtifact (d : CkptDir) : Artifact → CkptDir
  | .model_weights w => { d with model_weights := some w }
  | .optimizer_state s => { d with optimizer_state := some s }
  | .metadata m => { d with metadata := some (.good m) }

/-- Write an artifact into the directory named `name`. -/
def writeArtifact (root : List RootEntry) (name : String) (a : Artifact) :
    List RootEntry :=
  root.map (fun e => match e with
    | .dir d => if d.name = name then .dir (setArtifact d a) else e
    | .file n => .file n)

/-- A primitive filesystem operation performed by `save_checkpoint`. -/
inductive SaveOp where
  | mkdir (name : String)
  | write (name : String) (a : Artifact)
deriving DecidableEq

/-- The metadata mapping built at lines 28-33: always `step`; `data_shard`
and `data_position` exactly when a data loader was supplied. -/
def savedMetaData (step : Int) (data_loader : Option DataLoader) : MetaData :=
  { step := some step
    data_shard := data_loader.map (fun dl => dl.current_shard)
    data_position := data_loader.map (fun dl => dl.current_position) }

/-- The operations of `save_checkpoint`, in source order (lines 12-35):
create the directory, write the model weights, write the flattened optimizer
state (`dict(tree_flatten(optimizer.state))`), write the metadata last. -/
def saveScript (model : Model) (optimizer : Optimizer) (step : Int)
    (is_final : Bool) (data_loader : Option DataLoader) : List SaveOp :=
  let name := checkpointName is_final step
  [ .mkdir name
  , .write name (.model_weights model.weights)
  , .write name (.optimizer_state (pyDict (tree_flatten optimizer.state)))
  , .write name (.metadata (savedMetaData step data_loader)) ]

/-- Run one primitive operation. -/
def runOp (fs : FS) : SaveOp → Except String FS
  | .mkdir name => (makedirs (fs.getD []) name).map some
  | .write name a => .ok (some (writeArtifact (fs.getD []) name a))

/-- Run a list of primitive operations in order, stopping at an error. -/
def runOps (fs : FS) : List SaveOp → Except String FS
  | [] => .ok fs
  | op :: ops =>
    match runOp fs op with
    | .ok fs' => runOps fs' ops
    | .error e => .error e

/-- Model of `save_checkpoint(model, optimizer, step, checkpoint_dir,
is_final, data_loader)`: run the save script on the root. -/
def save_checkpoint (model : Model) (optimizer : Optimizer) (step : Int)
    (fs : FS) (is_final : Bool) (data_loader : Option DataLoader) :
    Except String FS :=
  runOps fs (saveScript model optimizer step is_final data_loader)

/-! ## `load_checkpoint` (`src/checkpoint.py` lines 39-97) -/

/-- The value returned by `load_checkpoint` plus the final states of the
mutated `model` / `optimizer` / `data_loader` arguments. -/
structure LoadResult where
  next_step : Int
  cursor : Option LoaderState
  model : Model
  optimizer : Optimizer
  data_loader : Option DataLoader

/-- Lines 47-54 for one entry: skip plain files (`os.path.isdir`), skip a
directory with no metadata file (`os.path.exists`); `mx.load` of a corrupt
metadata file raises, `metadata["step"]` of a step-less mapping raises. -/
def readCandidate : RootEntry → Except String (Option (Int × CkptDir))
  | .file _ => .ok none
  | .dir d =>
    match d.metadata with
    | none => .ok none
    | some .corrupt => .error "unreadable metadata"
    | some (.good m) =>
      match m.step with
      | none => .error "KeyError: step"
      | some s => .ok (some (s, d))

/-- The candidate scan of lines 46-54: `(step, directory)` pairs in
enumeration order; the first raising entry aborts the scan. -/
def collectCandidates : List RootEntry → Except String (List (Int × CkptDir))
  | [] => .ok []
  | e :: es =>
    match readCandidate e with
    | .error err => .error err
    | .ok c =>
      match collectCandidates es with
      | .error err => .error err
      | .ok rest => .ok (match c with | some x => x :: rest | none => rest)

/-- Stable insertion into a descending-by-step list. -/
def insertDesc (x : Int × CkptDir) : List (Int × CkptDir) → List (Int × CkptDir)
  | [] => [x]
  | y :: ys => if x.1 < y.1 then y :: insertDesc x ys else x :: y :: ys

/-- `checkpoints.sort(key=lambda x: x[0], reverse=True)` (line 60): Python's
sort is stable also with `reverse=True`, so candidates of equal step keep
their enumeration order. -/
def sortStepDesc : List (Int × CkptDir) → List (Int × CkptDir)
  | [] => []
  | x :: xs => insertDesc x (sortStepDesc xs)

/-- `checkpoints[0]` after the descending sort (lines 56-61); `none` exactly
when there is no candidate (the `if not checkpoints` return). -/
def selectLatest (l : List (Int × CkptDir)) : Option (Int × CkptDir) :=
  (sortStepDesc l).head?

/-- Lines 63-67: replace the model's weights when the artifact exists
(`mx.eval` of the parameters has no further observable effect here),
otherwise leave the model unchanged. -/
def loadModelWeights (model : Model) (d : CkptDir) : Model :=
  match d.model_weights with
  | some w => { weights := w }
  | none => model

/-- Lines 69-76: when the artifact exists, unflatten its entries and replace
the optimizer state wholesale; absent artifact leaves the optimizer
unchanged; a failing `tree_unflatten` raises. -/
def loadOptimizerState (optimizer : Optimizer) (d : CkptDir) :
    Except String Optimizer :=
  match d.optimizer_state with
  | some flat =>
    match tree_unflatten flat with
    | some t => .ok { state := t }
    | none => .error "tree_unflatten failed"
  | none => .ok optimizer

/-- Line 80: re-read the selected directory's metadata (no existence check;
the file was readable during the scan, and nothing changed since). -/
def readMetaFile (d : CkptDir) : Except String MetaData :=
  match d.metadata with
  | some (.good m) => .ok m
  | some .corrupt => .error "unreadable metadata"
  | none => .error "FileNotFoundError"

/-- Python list indexing `shards[i]`, with negative-index wrap-around and
`IndexError` out of range. -/
def pyIndex (l : List String) (i : Int) : Except String String :=
  let j := if i < 0 then (l.length : Int) + i else i
  if 0 ≤ j then
    match l.get? j.toNat with
    | some x => .ok x
    | none => .error "IndexError"
  else .error "IndexError"

/-- Lines 86-94: point the live loader at the restored shard/position and
re-load that shard's token buffer through `dataloader.load_tokens` (a
collaborator function, passed in as `load_tokens`). -/
def restoreLoader (load_tokens : String → Tokens) (dl : DataLoader)
    (ds dp : Int) : Except String DataLoader :=
  match pyIndex dl.shards ds with
  | .ok f => .ok { dl with current_shard := ds, current_position := dp,
                           tokens := load_tokens f }
  | .error e => .error e

/-- The cursor value `load_checkpoint` reports: present exactly when both
`data_shard` and `data_position` are in the metadata (line 81). -/
def cursorOfMeta (m : MetaData) : Option LoaderState :=
  match m.data_shard, m.data_position with
  | some ds, some dp => some ⟨ds, dp⟩
  | _, _ => none

/-- Lines 79-94: build the returned cursor when both `data_shard` and
`data_position` are present in the metadata, and additionally restore a live
loader when one was supplied. -/
def loadCursor (load_tokens : String → Tokens) (data_loader : Option DataLoader)
    (m : MetaData) : Except String (Option LoaderState × Option DataLoader) :=
  match m.data_shard, m.data_position with
  | some ds, some dp =>
    (match data_loader with
     | some dl =>
       match restoreLoader load_tokens dl ds dp with
       | .ok dl' => .ok (some ⟨ds, dp⟩, some dl')
       | .error e => .error e
     | none => .ok (some ⟨ds, dp⟩, none))
  | _, _ => .ok (none, data_loader)

/-- Lines 63-97 for the selected `(step, directory)` pair: restore model
weights, optimizer state and cursor, and return `step + 1`. -/
def loadSelected (model : Model) (optimizer : Optimizer)
    (data_loader : Option DataLoader) (load_tokens : String → Tokens)
    (step : Int) (d : CkptDir) : Except String LoadResult :=
  let model := loadModelWeights model d
  match loadOptimizerState optimizer d with
  | .error e => .error e
  | .ok optimizer =>
    match readMetaFile d with
    | .error e => .error e
    | .ok m =>
      match loadCursor load_tokens data_loader m with
      | .error e => .error e
      | .ok (cursor, dlOut) =>
        .ok ⟨step + 1, cursor, model, optimizer, dlOut⟩

/-- Model of `load_checkpoint(model, optimizer, checkpoint_dir, data_loader)`
(lines 39-97); `load_tokens` is the collaborator function imported at line 90.
Returns the `(step + 1, data_loader_state)` value together with the final
states of the three mutated arguments. -/
def load_checkpoint (model : Model) (optimizer : Optimizer) (fs : FS)
    (data_loader : Option DataLoader) (load_tokens : String → Tokens) :
    Except String LoadResult :=
  match fs with
  | none => .ok ⟨0, none, model, optimizer, data_loader⟩
  | some entries =>
    match collectCandidates entries with
    | .error e => .error e
    | .ok cands =>
      match selectLatest cands with
      | none => .ok ⟨0, none, model, optimizer, data_loader⟩
      | some (step, d) =>
        loadSelected model optimizer data_loader load_tokens step d

/-! ## Auxiliary notions used by the claim statements -/

/-- Rename a checkpoint directory (its artifacts are untouched). -/
def renameDir (f : String → String) (d : CkptDir) : CkptDir :=
  { d with name := f d.name }

/-- Rename every entry of the root. -/
def renameEntry (f : String → String) : RootEntry → RootEntry
  | .file n => .file (f n)
  | .dir d => .dir (renameDir f d)

/-! ## Concrete inputs used by witnesses and counterexamples -/

/-- A nested optimizer state exercising dicts, lists and leaves. -/
def demoState : PyTree :=
  .dictNode [("layers", .listNode [.dictNode [("m", .leaf 1), ("v", .leaf 2)],
                                   .dictNode [("m", .leaf 3), ("v", .leaf 4)]]),
             ("step", .leaf 7)]

/-- A concrete model. -/
def demoModel : Model := ⟨[("wte", 5)]⟩

/-- A concrete optimizer. -/
def demoOpt : Optimizer := ⟨demoState⟩

/-- A concrete data loader positioned at shard 2, position 100. -/
def demoDL : DataLoader := ⟨2, 100, ["s0", "s1", "s2"], [9]⟩

/-- A checkpoint directory with readable metadata recording step `s`,
weights `w`, and no optimizer artifact. -/
def demoDirAt (nm : String) (s : Int) (w : Int) : CkptDir :=
  ⟨nm, some [("w", w)], none, some (.good ⟨some s, none, none⟩)⟩

/-- A directory whose metadata file exists but is corrupt. -/
def corruptDir : CkptDir := ⟨"checkpoint_step_9", none, none, some .corrupt⟩

/-! # Lemmas

## Decimal strings and Python `int()` parsing -/

theorem digitChar_toNat {d : Nat} (h : d < 10) : (digitChar d).toNat = 48 + d := by
  unfold digitChar; interval_cases d <;> decide

theorem digitChar_isDigit {d : Nat} (h : d < 10) : (digitChar d).isDigit = true := by
  unfold digitChar; interval_cases d <;> decide

theorem digit_ne_us {c : Char} (h : c.isDigit = true) : c ≠ '_' := by
  intro he; rw [he] at h; exact absurd h (by decide)

theorem digit_ne_plus {c : Char} (h : c.isDigit = true) : c ≠ '+' := by
  intro he; rw [he] at h; exact absurd h (by decide)

theorem digit_ne_minus {c : Char} (h : c.isDigit = true) : c ≠ '-' := by
  intro he; rw [he] at h; exact absurd h (by decide)

theorem digit_not_ws {c : Char} (h : c.isDigit = true) : c.isWhitespace = false := by
  rcases hw : c.isWhitespace with _ | _
  · rfl
  · exfalso
    simp only [Char.isWhitespace, Bool.or_eq_true, decide_eq_true_eq] at hw
    rcases hw with ((he | he) | he) | he <;> subst he <;> exact absurd h (by decide)

theorem natDigits_ne_nil (n : Nat) : natDigits n ≠ [] := by
  rw [natDigits]
  split
  · simp
  · simp

theorem natDigits_all_digit : ∀ n, ∀ c ∈ natDigits n, c.isDigit = true := by
  intro n
  induction n using Nat.strong_induction_on with
  | _ n ih =>
    rw [natDigits]
    split
    · intro c hc
      rw [List.mem_singleton] at hc
      subst hc
      exact digitChar_isDigit (by omega)
    · intro c hc
      rcases List.mem_append.1 hc with h | h
      · exact ih (n / 10) (Nat.div_lt_self (by omega) (by omega)) c h
      · rw [List.mem_singleton] at h
        subst h
        exact digitChar_isDigit (Nat.mod_lt _ (by omega))

theorem digitsVal_append_digit (l : List Char) {c : Char} (h : c ≠ '_') :
    digitsVal (l ++ [c]) = digitsVal l * 10 + (c.toNat - 48) := by
  unfold digitsVal
  rw [List.foldl_append]
  simp [h]

theorem digitsVal_natDigits : ∀ n, digitsVal (natDigits n) = n := by
  intro n
  induction n using Nat.strong_induction_on with
  | _ n ih =>
    rw [natDigits]
    split
    · rename_i h
      unfold digitsVal
      simp [digit_ne_us (digitChar_isDigit h), digitChar_toNat h]
    · rename_i h
      rw [digitsVal_append_digit _
            (digit_ne_us (digitChar_isDigit (Nat.mod_lt _ (by omega)))),
          ih (n / 10) (Nat.div_lt_self (by omega) (by omega)),
          digitChar_toNat (Nat.mod_lt _ (by omega))]
      omega

theorem digitsRest_cons (c : Char) (rest : List Char) :
    digitsRest (c :: rest) =
      if c = '_' then
        (match rest with
         | [] => false
         | c' :: rest' => c'.isDigit && digitsRest rest')
      else c.isDigit && digitsRest rest := by
  rw [digitsRest.eq_def]

theorem digitsRest_of_digits {l : List Char} (h : ∀ c ∈ l, c.isDigit = true) :
    digitsRest l = true := by
  induction l with
  | nil => rfl
  | cons c rest ih =>
    have hc := h c (List.mem_cons_self c rest)
    rw [digitsRest_cons, if_neg (digit_ne_us hc)]
    simp [hc, ih (fun c' hc' => h c' (List.mem_cons_of_mem _ hc'))]

theorem digitsCore_of_digits {l : List Char} (hne : l ≠ [])
    (h : ∀ c ∈ l, c.isDigit = true) : digitsCore l = true := by
  cases l with
  | nil => exact absurd rfl hne
  | cons c rest =>
    rw [digitsCore]
    simp [h c (List.mem_cons_self c rest),
          digitsRest_of_digits (fun c' hc' => h c' (List.mem_cons_of_mem _ hc'))]

theorem dropWhile_ws_of_digits {l : List Char} (h : ∀ c ∈ l, c.isDigit = true) :
    l.dropWhile Char.isWhitespace = l := by
  cases l with
  | nil => rfl
  | cons c rest =>
    rw [List.dropWhile_cons_of_neg]
    rw [digit_not_ws (h c (List.mem_cons_self c rest))]
    simp

theorem stripWS_of_digits {l : List Char} (h : ∀ c ∈ l, c.isDigit = true) :
    stripWS l = l := by
  unfold stripWS
  rw [dropWhile_ws_of_digits h,
      dropWhile_ws_of_digits (by intro c hc; exact h c (List.mem_reverse.1 hc)),
      List.reverse_reverse]

theorem pyParseInt_strN (n : Nat) : pyParseInt (strN n) = some (n : Int) := by
  have hdig := natDigits_all_digit n
  have hdata : (strN n).data = natDigits n := rfl
  rw [pyParseInt, hdata, stripWS_of_digits hdig]
  rcases hE : natDigits n with _ | ⟨c, rest⟩
  · exact absurd hE (natDigits_ne_nil n)
  · show pyParseSigned c rest = some (n : Int)
    have hc : c.isDigit = true := hdig c (hE ▸ List.mem_cons_self c rest)
    rw [pyParseSigned, if_neg (digit_ne_plus hc), if_neg (digit_ne_minus hc),
        if_pos (hE ▸ digitsCore_of_digits (natDigits_ne_nil n) hdig)]
    rw [← hE, digitsVal_natDigits]

theorem strN_injective {a b : Nat} (h : strN a = strN b) : a = b := by
  have ha := pyParseInt_strN a
  have hb := pyParseInt_strN b
  rw [h, hb] at ha
  simpa using ha.symm

theorem pyParseInt_strN_isSome (n : Nat) : (pyParseInt (strN n)).isSome = true := by
  rw [pyParseInt_strN]; rfl

/-! ## Well-formedness and the shape of `tree_flatten` -/

theorem wfForest_iff {ts : List PyTree} :
    wfForest ts = true ↔ ∀ t ∈ ts, wfTree t = true := by
  induction ts with
  | nil => simp [wfForest]
  | cons t ts ih => simp [wfForest, ih]

theorem wfDict_iff {kvs : List (String × PyTree)} :
    wfDict kvs = true ↔ ∀ kv ∈ kvs, wfTree kv.2 = true := by
  induction kvs with
  | nil => simp [wfDict]
  | cons kv kvs ih => simp [wfDict, ih]

theorem wfTree_listNode {ts : List PyTree} (h : wfTree (.listNode ts) = true) :
    ts ≠ [] ∧ ∀ t ∈ ts, wfTree t = true := by
  rw [wfTree] at h
  simp only [Bool.and_eq_true, Bool.not_eq_true', List.isEmpty_eq_false] at h
  exact ⟨h.1, wfForest_iff.1 h.2⟩

theorem wfTree_dictNode {kvs : List (String × PyTree)}
    (h : wfTree (.dictNode kvs) = true) :
    kvs ≠ [] ∧ (kvs.map Prod.fst).Nodup ∧
      (∀ kv ∈ kvs, kv.1 ≠ "" ∧ (pyParseInt kv.1).isSome = false) ∧
      ∀ kv ∈ kvs, wfTree kv.2 = true := by
  rw [wfTree] at h
  rw [Bool.and_eq_true, Bool.and_eq_true, Bool.and_eq_true] at h
  obtain ⟨⟨⟨hne, hnd⟩, hkeys⟩, hwf⟩ := h
  refine ⟨by simpa using hne, by simpa using hnd, ?_, wfDict_iff.1 hwf⟩
  intro kv hkv
  have hx := List.all_eq_true.mp hkeys kv hkv
  rw [Bool.and_eq_true, Bool.and_eq_true] at hx
  refine ⟨by simpa using hx.1.1, ?_⟩
  have h3 : (pyParseInt kv.1).isNone = true := hx.2
  rcases hp : pyParseInt kv.1 with _ | v
  · rfl
  · rw [hp] at h3
    exact absurd h3 (by simp)

theorem flattenDict_eq (kvs : List (String × PyTree)) :
    flattenDict kvs =
      blocksEntries (kvs.map (fun kv => (kv.1, tree_flatten kv.2))) := by
  induction kvs with
  | nil => simp [flattenDict, blocksEntries]
  | cons kv kvs ih =>
    obtain ⟨k, t⟩ := kv
    simp [flattenDict, blocksEntries, ih]

theorem flattenListFrom_eq (ts : List PyTree) : ∀ i,
    flattenListFrom i ts =
      blocksEntries ((List.enumFrom i ts).map
        (fun p => (strN p.1, tree_flatten p.2))) := by
  induction ts with
  | nil => intro i; simp [flattenListFrom, blocksEntries]
  | cons t ts ih =>
    intro i
    simp [flattenListFrom, blocksEntries, List.enumFrom, ih (i + 1)]

theorem tree_flatten_ne_nil : ∀ t, wfTree t = true → tree_flatten t ≠ [] := by
  intro t
  induction t using PyTree.inductionOn with
  | hleaf v => intro _; simp [tree_flatten]
  | hlist ts ih =>
    intro hwf
    obtain ⟨hne, hall⟩ := wfTree_listNode hwf
    rcases hE : ts with _ | ⟨t, ts'⟩
    · exact absurd hE hne
    · subst hE
      rw [tree_flatten, flattenListFrom]
      have : tree_flatten t ≠ [] :=
        ih t (List.mem_cons_self _ _) (hall t (List.mem_cons_self _ _))
      simp [prefixEntries, this]
  | hdict kvs ih =>
    intro hwf
    obtain ⟨hne, _, _, hall⟩ := wfTree_dictNode hwf
    rcases hE : kvs with _ | ⟨⟨k, t⟩, kvs'⟩
    · exact absurd hE hne
    · subst hE
      rw [tree_flatten, flattenDict]
      have : tree_flatten t ≠ [] :=
        ih (k, t) (List.mem_cons_self _ _) (hall (k, t) (List.mem_cons_self _ _))
      simp [prefixEntries, this]

theorem mem_blocksEntries_keys {blocks : List (String × List FlatEntry)}
    {x : Key} (h : x ∈ (blocksEntries blocks).map Prod.fst) :
    ∃ b ∈ blocks, ∃ p, x = b.1 :: p := by
  simp only [blocksEntries, prefixEntries, List.map_flatMap, List.mem_flatMap,
    List.map_map, List.mem_map] at h
  obtain ⟨b, hb, e, _, he⟩ := h
  exact ⟨b, hb, e.1, he.symm⟩

theorem blocksEntries_keys_nodup {blocks : List (String × List FlatEntry)}
    (hkeys : (blocks.map Prod.fst).Nodup)
    (hgroups : ∀ b ∈ blocks, (b.2.map Prod.fst).Nodup) :
    ((blocksEntries blocks).map Prod.fst).Nodup := by
  induction blocks with
  | nil => simp [blocksEntries]
  | cons b rest ih =>
    rw [List.map_cons, List.nodup_cons] at hkeys
    have hb := hgroups b (List.mem_cons_self _ _)
    have hrest := ih hkeys.2 (fun b' hb' => hgroups b' (List.mem_cons_of_mem _ hb'))
    simp only [blocksEntries, List.flatMap_cons, List.map_append]
    rw [List.nodup_append]
    refine ⟨?_, hrest, ?_⟩
    · have hinj : Function.Injective (fun p : Key => b.1 :: p) := by
        intro p q hpq; simpa using hpq
      have h2 : ((b.2.map Prod.fst).map (fun p => b.1 :: p)).Nodup :=
        List.Nodup.map hinj hb
      simpa [prefixEntries, List.map_map, Function.comp] using h2
    · intro x hx hy
      obtain ⟨p, hp⟩ : ∃ p, x = b.1 :: p := by
        simp only [prefixEntries, List.map_map, List.mem_map, Function.comp] at hx
        obtain ⟨e, _, he⟩ := hx
        exact ⟨e.1, he.symm⟩
      obtain ⟨b', hb', q, hq⟩ := mem_blocksEntries_keys (x := x) hy
      rw [hp] at hq
      obtain ⟨hhead, _⟩ := List.cons_eq_cons.mp hq
      exact hkeys.1 (hhead ▸ List.mem_map_of_mem Prod.fst hb')

theorem tree_flatten_keys_nodup : ∀ t, wfTree t = true →
    ((tree_flatten t).map Prod.fst).Nodup := by
  intro t
  induction t using PyTree.inductionOn with
  | hleaf v => intro _; simp [tree_flatten]
  | hlist ts ih =>
    intro hwf
    obtain ⟨-, hall⟩ := wfTree_listNode hwf
    rw [tree_flatten, flattenListFrom_eq]
    apply blocksEntries_keys_nodup
    · rw [List.map_map]
      have h1 : (Prod.fst ∘ fun p : Nat × PyTree => (strN p.1, tree_flatten p.2))
          = strN ∘ Prod.fst := rfl
      rw [h1, ← List.map_map, List.enumFrom_map_fst]
      have h2 : (List.range' 0 ts.length).Nodup := by
        rw [List.range'_eq_map_range]
        exact List.Nodup.map (add_right_injective 0) (List.nodup_range _)
      exact List.Nodup.map (fun a b h => strN_injective h) h2
    · intro b hb
      rw [List.mem_map] at hb
      obtain ⟨p, hp, hb⟩ := hb
      have hmem := List.snd_mem_of_mem_enumFrom hp
      rw [← hb]
      exact ih p.2 hmem (hall p.2 hmem)
  | hdict kvs ih =>
    intro hwf
    obtain ⟨-, hnd, -, hall⟩ := wfTree_dictNode hwf
    rw [tree_flatten, flattenDict_eq]
    apply blocksEntries_keys_nodup
    · rw [List.map_map]
      exact hnd
    · intro b hb
      rw [List.mem_map] at hb
      obtain ⟨kv, hkv, hb⟩ := hb
      rw [← hb]
      exact ih kv hkv (hall kv hkv)

/-! ## `dict(...)` on a nodup-keyed list is the identity -/

theorem pyDict_go_eq (l : List FlatEntry) : ∀ acc : List FlatEntry,
    (∀ x ∈ l, x.1 ∉ acc.map Prod.fst) → (l.map Prod.fst).Nodup →
    l.foldl (fun acc e =>
      if acc.any (fun x => x.1 = e.1)
      then acc.map (fun x => if x.1 = e.1 then (x.1, e.2) else x)
      else acc ++ [e]) acc = acc ++ l := by
  induction l with
  | nil => intro acc _ _; simp
  | cons e l' ih =>
    intro acc hdis hnd
    rw [List.foldl_cons]
    have hany : acc.any (fun x => x.1 = e.1) = false := by
      rw [List.any_eq_false]
      intro x hx
      simp only [decide_eq_true_eq]
      intro hfst
      exact hdis e (List.mem_cons_self _ _) (hfst ▸ List.mem_map_of_mem Prod.fst hx)
    rw [hany]
    simp only [Bool.false_eq_true, if_false]
    rw [List.map_cons, List.nodup_cons] at hnd
    rw [ih (acc ++ [e]) ?_ hnd.2]
    · simp
    · intro x hx
      rw [List.map_append, List.mem_append]
      rintro (hmem | hmem)
      · exact hdis x (List.mem_cons_of_mem _ hx) hmem
      · simp only [List.map_cons, List.map_nil, List.mem_singleton] at hmem
        exact hnd.1 (hmem ▸ List.mem_map_of_mem Prod.fst hx)

theorem pyDict_eq_self {l : List FlatEntry} (h : (l.map Prod.fst).Nodup) :
    pyDict l = l := by
  have := pyDict_go_eq l [] (by simp) h
  simpa [pyDict] using this

/-! ## Regrouping a flattened container node recovers its blocks -/

theorem uniqKeys_nil : uniqKeys [] = [] := by rw [uniqKeys]

theorem uniqKeys_cons (k : String) (ks : List String) :
    uniqKeys (k :: ks) = k :: uniqKeys (ks.filter (fun k' => k' ≠ k)) := by
  rw [uniqKeys]

theorem mem_flatMap_replicate {blocks : List (String × Nat)} {x : String}
    (h : x ∈ blocks.flatMap (fun b => List.replicate b.2 b.1)) :
    ∃ b ∈ blocks, x = b.1 := by
  rw [List.mem_flatMap] at h
  obtain ⟨b, hb, hx⟩ := h
  exact ⟨b, hb, (List.eq_of_mem_replicate hx)⟩

theorem uniqKeys_flatMap_replicate : ∀ blocks : List (String × Nat),
    (∀ b ∈ blocks, b.2 ≠ 0) → (blocks.map Prod.fst).Nodup →
    uniqKeys (blocks.flatMap (fun b => List.replicate b.2 b.1)) =
      blocks.map Prod.fst := by
  intro blocks
  induction blocks with
  | nil => intro _ _; simp [uniqKeys_nil]
  | cons b rest ih =>
    intro hpos hnd
    rw [List.map_cons, List.nodup_cons] at hnd
    rcases hn : b.2 with _ | m
    · exact absurd hn (hpos b (List.mem_cons_self _ _))
    · rw [List.flatMap_cons, hn, List.replicate_succ, List.cons_append,
        uniqKeys_cons, List.filter_append]
      have h1 : (List.replicate m b.1).filter (fun k' => k' ≠ b.1) = [] := by
        simp
      have h2 : (rest.flatMap (fun b => List.replicate b.2 b.1)).filter
          (fun k' => k' ≠ b.1) = rest.flatMap (fun b => List.replicate b.2 b.1) := by
        rw [List.filter_eq_self]
        intro x hx
        obtain ⟨b', hb', hxb⟩ := mem_flatMap_replicate hx
        simp only [decide_eq_true_eq]
        intro he
        exact hnd.1 ((hxb ▸ he) ▸ List.mem_map_of_mem Prod.fst hb')
      rw [h1, h2, List.nil_append,
        ih (fun b' hb' => hpos b' (List.mem_cons_of_mem _ hb')) hnd.2,
        List.map_cons]

theorem headKey_blocksEntries (blocks : List (String × List FlatEntry)) :
    (blocksEntries blocks).map headKey =
      blocks.flatMap (fun b => List.replicate b.2.length b.1) := by
  induction blocks with
  | nil => simp [blocksEntries]
  | cons b rest ih =>
    simp only [blocksEntries, List.flatMap_cons, List.map_append] at *
    rw [ih]
    congr 1
    rw [prefixEntries, List.map_map]
    exact List.map_const' b.2 b.1

theorem blocksEntries_cons (b : String × List FlatEntry)
    (rest : List (String × List FlatEntry)) :
    blocksEntries (b :: rest) = prefixEntries b.1 b.2 ++ blocksEntries rest := by
  simp [blocksEntries]

theorem childEntriesFor_append (l₁ l₂ : List FlatEntry) (k : String) :
    childEntriesFor (l₁ ++ l₂) k = childEntriesFor l₁ k ++ childEntriesFor l₂ k :=
  List.filterMap_append ..

theorem childEntriesFor_prefixEntries (k' k : String) (g : List FlatEntry) :
    childEntriesFor (prefixEntries k' g) k = if k' = k then g else [] := by
  rw [childEntriesFor, prefixEntries, List.filterMap_map]
  rcases he : decide (k' = k) with _ | _
  · rw [if_neg (of_decide_eq_false he)]
    rw [List.filterMap_eq_nil_iff]
    intro e _
    simp [splitHead, of_decide_eq_false he]
  · rw [if_pos (of_decide_eq_true he)]
    have : ((fun e : FlatEntry =>
        if (splitHead e.1).1 = k then some ((splitHead e.1).2, e.2) else none) ∘
          fun e : FlatEntry => (k' :: e.1, e.2)) = fun e => some e := by
      funext e
      simp [splitHead, of_decide_eq_true he]
    rw [this]
    exact List.filterMap_some g

theorem childEntriesFor_blocksEntries (blocks : List (String × List FlatEntry))
    (k : String) :
    childEntriesFor (blocksEntries blocks) k =
      blocks.flatMap (fun b => if b.1 = k then b.2 else []) := by
  induction blocks with
  | nil => simp [blocksEntries, childEntriesFor]
  | cons b rest ih =>
    simp only [blocksEntries, List.flatMap_cons] at *
    rw [childEntriesFor_append, ih, childEntriesFor_prefixEntries]

theorem childEntriesFor_not_mem {blocks : List (String × List FlatEntry)}
    {k : String} (h : k ∉ blocks.map Prod.fst) :
    childEntriesFor (blocksEntries blocks) k = [] := by
  rw [childEntriesFor_blocksEntries]
  rw [List.flatMap_eq_nil_iff]
  intro b hb
  rw [if_neg]
  intro he
  exact h (he ▸ List.mem_map_of_mem Prod.fst hb)

theorem groupChildren_blocksEntries : ∀ blocks : List (String × List FlatEntry),
    (blocks.map Prod.fst).Nodup → (∀ b ∈ blocks, b.2 ≠ []) →
    groupChildren (blocksEntries blocks) = blocks := by
  intro blocks
  induction blocks with
  | nil => intro _ _; simp [groupChildren, blocksEntries, uniqKeys_nil]
  | cons b rest ih =>
    intro hnd hne
    have hnd' := hnd
    rw [List.map_cons, List.nodup_cons] at hnd'
    have hkeys : uniqKeys ((blocksEntries (b :: rest)).map headKey) =
        b.1 :: rest.map Prod.fst := by
      rw [headKey_blocksEntries]
      have := uniqKeys_flatMap_replicate
        ((b :: rest).map (fun b => (b.1, b.2.length)))
        (by
          intro b' hb'
          rw [List.mem_map] at hb'
          obtain ⟨b'', hb'', he⟩ := hb'
          rw [← he]
          simp only [ne_eq, List.length_eq_zero]
          exact hne b'' hb'')
        (by
          rw [List.map_map]
          exact hnd)
      rw [List.flatMap_map] at this
      rw [this, List.map_map]
      rfl
    rw [groupChildren, hkeys, List.map_cons]
    have hfirst : childEntriesFor (blocksEntries (b :: rest)) b.1 = b.2 := by
      rw [blocksEntries_cons, childEntriesFor_append,
        childEntriesFor_prefixEntries, if_pos rfl,
        childEntriesFor_not_mem hnd'.1, List.append_nil]
    rw [hfirst]
    have htail : (rest.map Prod.fst).map
        (fun k => (k, childEntriesFor (blocksEntries (b :: rest)) k)) =
        (rest.map Prod.fst).map
        (fun k => (k, childEntriesFor (blocksEntries rest) k)) := by
      apply List.map_congr_left
      intro k hk
      have hbk : b.1 ≠ k := by
        intro he
        exact hnd'.1 (he ▸ hk)
      rw [blocksEntries_cons, childEntriesFor_append,
        childEntriesFor_prefixEntries, if_neg hbk, List.nil_append]
    rw [htail]
    have hrest := ih hnd'.2 (fun b' hb' => hne b' (List.mem_cons_of_mem _ hb'))
    rw [groupChildren] at hrest
    have hkeysrest : uniqKeys ((blocksEntries rest).map headKey) =
        rest.map Prod.fst := by
      rw [headKey_blocksEntries]
      have := uniqKeys_flatMap_replicate
        (rest.map (fun b => (b.1, b.2.length)))
        (by
          intro b' hb'
          rw [List.mem_map] at hb'
          obtain ⟨b'', hb'', he⟩ := hb'
          rw [← he]
          simp only [ne_eq, List.length_eq_zero]
          exact hne b'' (List.mem_cons_of_mem _ hb''))
        (by
          rw [List.map_map]
          exact hnd'.2)
      rw [List.flatMap_map] at this
      rw [this, List.map_map]
      rfl
    rw [hkeysrest] at hrest
    rw [hrest]

/-! ## Unflattening a flattened tree -/

theorem tree_unflatten_fuel_leaf (v : Int) (fuel : Nat) :
    tree_unflatten_fuel (fuel + 1) [([], v)] = some (.leaf v) := by
  rw [tree_unflatten_fuel]
  simp

theorem tree_unflatten_fuel_node (fuel : Nat) (e : FlatEntry)
    (rest : List FlatEntry) (hne : ¬(e.1 = [] ∧ rest = [])) :
    tree_unflatten_fuel (fuel + 1) (e :: rest) =
      if (pyParseInt (splitHead e.1).1).isSome then
        match parseAll (groupChildren (e :: rest)) with
        | some pairs => (buildPyList fuel [] (sortAsc pairs)).map PyTree.listNode
        | none => none
      else (buildPyDict fuel (groupChildren (e :: rest))).map PyTree.dictNode := by
  rw [tree_unflatten_fuel, if_neg hne]

theorem insertAsc_head_lt (x y : Int × String × List FlatEntry)
    (ys : List (Int × String × List FlatEntry)) (h : x.1 < y.1) :
    insertAsc x (y :: ys) = x :: y :: ys := by
  rw [insertAsc, if_neg]
  simp only [pairLt, Bool.or_eq_true, Bool.and_eq_true, decide_eq_true_eq]
  rintro (h1 | ⟨h2, h3⟩) <;> omega

theorem sortAsc_of_chain : ∀ l : List (Int × String × List FlatEntry),
    List.Chain' (fun a b => a.1 < b.1) l → sortAsc l = l := by
  intro l
  induction l with
  | nil => intro _; rfl
  | cons x xs ih =>
    intro h
    rw [sortAsc]
    cases xs with
    | nil => rfl
    | cons y ys =>
      rw [List.chain'_cons] at h
      rw [ih h.2]
      exact insertAsc_head_lt x y ys h.1

theorem parseAll_enum (ts : List PyTree) : ∀ i,
    parseAll ((List.enumFrom i ts).map (fun p => (strN p.1, tree_flatten p.2))) =
      some ((List.enumFrom i ts).map
        (fun p => ((p.1 : Int), strN p.1, tree_flatten p.2))) := by
  induction ts with
  | nil => intro i; rfl
  | cons t ts ih =>
    intro i
    rw [List.enumFrom, List.map_cons, List.map_cons, parseAll,
      pyParseInt_strN, ih (i + 1)]

theorem chain_enum (ts : List PyTree) : ∀ i,
    List.Chain' (fun a b : Int × String × List FlatEntry => a.1 < b.1)
      ((List.enumFrom i ts).map
        (fun p => ((p.1 : Int), strN p.1, tree_flatten p.2))) := by
  induction ts with
  | nil => intro i; simp
  | cons t ts ih =>
    intro i
    cases ts with
    | nil => simp [List.enumFrom]
    | cons t' ts' =>
      rw [List.enumFrom, List.enumFrom, List.map_cons, List.map_cons,
        List.chain'_cons]
      have hih := ih (i + 1)
      rw [List.enumFrom, List.map_cons] at hih
      refine ⟨?_, hih⟩
      show (i : Int) < ((i + 1 : Nat) : Int)
      exact_mod_cast Nat.lt_succ_self i

theorem buildPyList_flatten (fuel : Nat) : ∀ ts : List PyTree,
    (∀ t ∈ ts, tree_unflatten_fuel fuel (tree_flatten t) = some t) →
    ∀ acc : List PyTree,
    buildPyList fuel acc ((List.enumFrom acc.length ts).map
      (fun p => ((p.1 : Int), strN p.1, tree_flatten p.2))) = some (acc ++ ts) := by
  intro ts
  induction ts with
  | nil => intro _ acc; simp [buildPyList]
  | cons t ts ih =>
    intro h acc
    rw [List.enumFrom, List.map_cons, buildPyList]
    have hgap : (((acc.length : Int)) - (acc.length : Int)).toNat = 0 := by omega
    rw [hgap, List.replicate_zero, List.append_nil,
      h t (List.mem_cons_self _ _)]
    show buildPyList fuel (acc ++ [t])
        ((List.enumFrom (acc.length + 1) ts).map
          (fun p => ((p.1 : Int), strN p.1, tree_flatten p.2))) = some (acc ++ t :: ts)
    rw [show acc.length + 1 = (acc ++ [t]).length by simp]
    rw [ih (fun t' ht' => h t' (List.mem_cons_of_mem _ ht')) (acc ++ [t])]
    simp

theorem buildPyDict_flatten (fuel : Nat) : ∀ kvs : List (String × PyTree),
    (∀ kv ∈ kvs, tree_unflatten_fuel fuel (tree_flatten kv.2) = some kv.2) →
    buildPyDict fuel (kvs.map (fun kv => (kv.1, tree_flatten kv.2))) = some kvs := by
  intro kvs
  induction kvs with
  | nil =>
    intro _
    rw [List.map_nil, buildPyDict]
  | cons kv kvs ih =>
    intro h
    rw [List.map_cons, buildPyDict, h kv (List.mem_cons_self _ _)]
    show (match buildPyDict fuel (kvs.map (fun kv => (kv.1, tree_flatten kv.2))) with
          | some r => some ((kv.1, kv.2) :: r)
          | none => none) = some (kv :: kvs)
    rw [ih (fun kv' hkv' => h kv' (List.mem_cons_of_mem _ hkv'))]

theorem depthForest_ge {ts : List PyTree} : ∀ t ∈ ts, treeDepth t ≤ depthForest ts := by
  induction ts with
  | nil => intro t ht; cases ht
  | cons t' ts ih =>
    intro t ht
    rw [depthForest]
    rcases List.mem_cons.mp ht with he | hm
    · subst he
      exact le_max_left _ _
    · exact le_trans (ih t hm) (le_max_right _ _)

theorem depthDict_ge {kvs : List (String × PyTree)} :
    ∀ kv ∈ kvs, treeDepth kv.2 ≤ depthDict kvs := by
  induction kvs with
  | nil => intro kv hkv; cases hkv
  | cons kv' kvs ih =>
    intro kv hkv
    rw [depthDict]
    rcases List.mem_cons.mp hkv with he | hm
    · subst he
      exact le_max_left _ _
    · exact le_trans (ih kv hm) (le_max_right _ _)

theorem blocksEntries_head_shape {blocks : List (String × List FlatEntry)}
    {b0 : String × List FlatEntry} {brest : List (String × List FlatEntry)}
    (hb : blocks = b0 :: brest) (hne : b0.2 ≠ []) :
    ∃ p v tail, blocksEntries blocks = (b0.1 :: p, v) :: tail := by
  subst hb
  rcases hg : b0.2 with _ | ⟨e, g'⟩
  · exact absurd hg hne
  · rw [blocksEntries_cons, hg, prefixEntries, List.map_cons, List.cons_append]
    exact ⟨e.1, e.2, _, rfl⟩

theorem tree_unflatten_fuel_flatten : ∀ t, wfTree t = true →
    ∀ fuel, treeDepth t ≤ fuel →
    tree_unflatten_fuel fuel (tree_flatten t) = some t := by
  intro t
  induction t using PyTree.inductionOn with
  | hleaf v =>
    intro _ fuel hfuel
    rw [treeDepth] at hfuel
    rcases fuel with _ | f
    · omega
    · rw [tree_flatten]
      exact tree_unflatten_fuel_leaf v f
  | hlist ts ih =>
    intro hwf fuel hfuel
    obtain ⟨hne, hall⟩ := wfTree_listNode hwf
    rw [treeDepth] at hfuel
    rcases fuel with _ | f
    · omega
    rw [tree_flatten, flattenListFrom_eq]
    have hgne : ∀ b ∈ (List.enumFrom 0 ts).map
        (fun p => (strN p.1, tree_flatten p.2)), b.2 ≠ [] := by
      intro b hb
      rw [List.mem_map] at hb
      obtain ⟨q, hq, he⟩ := hb
      rw [← he]
      exact tree_flatten_ne_nil q.2 (hall q.2 (List.snd_mem_of_mem_enumFrom hq))
    have hbnd : (((List.enumFrom 0 ts).map
        (fun p => (strN p.1, tree_flatten p.2))).map Prod.fst).Nodup := by
      rw [List.map_map]
      have h1 : (Prod.fst ∘ fun p : Nat × PyTree => (strN p.1, tree_flatten p.2))
          = strN ∘ Prod.fst := rfl
      rw [h1, ← List.map_map, List.enumFrom_map_fst]
      have h2 : (List.range' 0 ts.length).Nodup := by
        rw [List.range'_eq_map_range]
        exact List.Nodup.map (add_right_injective 0) (List.nodup_range _)
      exact List.Nodup.map (fun a b h => strN_injective h) h2
    have hgroup := groupChildren_blocksEntries _ hbnd hgne
    have hchild : ∀ t' ∈ ts, tree_unflatten_fuel f (tree_flatten t') = some t' := by
      intro t' ht'
      exact ih t' ht' (hall t' ht') f (le_trans (depthForest_ge t' ht') (by omega))
    rcases ts with _ | ⟨t0, ts'⟩
    · exact absurd rfl hne
    have hb0 : (List.enumFrom 0 (t0 :: ts')).map
        (fun p => (strN p.1, tree_flatten p.2))
        = (strN 0, tree_flatten t0) :: (List.enumFrom 1 ts').map
            (fun p => (strN p.1, tree_flatten p.2)) := by
      rw [List.enumFrom, List.map_cons]
    obtain ⟨p, v, tail, hshape⟩ := blocksEntries_head_shape hb0
      (tree_flatten_ne_nil t0 (hall t0 (List.mem_cons_self _ _)))
    rw [hshape, tree_unflatten_fuel_node _ _ _ (by simp)]
    have hred : (pyParseInt (splitHead ((strN 0 :: p, v) : FlatEntry).1).1).isSome
        = true := by
      simp [splitHead, pyParseInt_strN]
    rw [if_pos hred, ← hshape, hgroup, parseAll_enum]
    show (buildPyList f [] (sortAsc ((List.enumFrom 0 (t0 :: ts')).map
        (fun q => ((q.1 : Int), strN q.1,
          tree_flatten q.2))))).map PyTree.listNode
      = some (PyTree.listNode (t0 :: ts'))
    rw [sortAsc_of_chain _ (chain_enum (t0 :: ts') 0)]
    have hbl := buildPyList_flatten f (t0 :: ts') hchild []
    rw [List.length_nil] at hbl
    rw [List.nil_append] at hbl
    rw [hbl]
    rfl
  | hdict kvs ih =>
    intro hwf fuel hfuel
    obtain ⟨hne, hnd, hkeys, hall⟩ := wfTree_dictNode hwf
    rw [treeDepth] at hfuel
    rcases fuel with _ | f
    · omega
    rw [tree_flatten, flattenDict_eq]
    have hgne : ∀ b ∈ kvs.map (fun kv => (kv.1, tree_flatten kv.2)), b.2 ≠ [] := by
      intro b hb
      rw [List.mem_map] at hb
      obtain ⟨kv, hkv, he⟩ := hb
      rw [← he]
      exact tree_flatten_ne_nil kv.2 (hall kv hkv)
    have hbnd : ((kvs.map (fun kv => (kv.1, tree_flatten kv.2))).map Prod.fst).Nodup := by
      rw [List.map_map]
      exact hnd
    have hgroup := groupChildren_blocksEntries _ hbnd hgne
    have hchild : ∀ kv ∈ kvs, tree_unflatten_fuel f (tree_flatten kv.2) = some kv.2 := by
      intro kv hkv
      exact ih kv hkv (hall kv hkv) f (le_trans (depthDict_ge kv hkv) (by omega))
    rcases kvs with _ | ⟨kv0, rest0⟩
    · exact absurd rfl hne
    have hb0 : ((kv0 :: rest0).map (fun kv => (kv.1, tree_flatten kv.2)))
        = (kv0.1, tree_flatten kv0.2)
            :: rest0.map (fun kv => (kv.1, tree_flatten kv.2)) := by
      rw [List.map_cons]
    obtain ⟨p, v, tail, hshape⟩ := blocksEntries_head_shape hb0
      (tree_flatten_ne_nil kv0.2 (hall kv0 (List.mem_cons_self _ _)))
    rw [hshape, tree_unflatten_fuel_node _ _ _ (by simp)]
    have hparse := (hkeys kv0 (List.mem_cons_self _ _)).2
    have hred : (pyParseInt (splitHead ((kv0.1 :: p, v) : FlatEntry).1).1).isSome
        = false := by
      simp only [splitHead]
      exact hparse
    rw [if_neg (by rw [hred]; simp), ← hshape, hgroup,
      buildPyDict_flatten f (kv0 :: rest0) hchild]
    rfl

/-! ## The default fuel suffices on flattened trees -/

theorem treeDepth_pos (t : PyTree) : 1 ≤ treeDepth t := by
  rcases t with v | ts | kvs <;> rw [treeDepth] <;> omega

theorem foldl_max_init_le (l : List FlatEntry) : ∀ acc : Nat,
    acc ≤ l.foldl (fun a e => max a e.1.length) acc := by
  induction l with
  | nil => intro acc; simp
  | cons e l ih =>
    intro acc
    rw [List.foldl_cons]
    exact le_trans (le_max_left _ _) (ih _)

theorem foldl_max_ge_mem (l : List FlatEntry) : ∀ acc : Nat, ∀ e ∈ l,
    e.1.length ≤ l.foldl (fun a e => max a e.1.length) acc := by
  induction l with
  | nil => intro acc e he; cases he
  | cons e0 l ih =>
    intro acc e he
    rw [List.foldl_cons]
    rcases List.mem_cons.mp he with h | h
    · subst h
      exact le_trans (le_max_right _ _) (foldl_max_init_le l _)
    · exact ih _ e h

theorem exists_deep_forest :
    ∀ ts : List PyTree,
    (∀ t ∈ ts, wfTree t = true → ∃ e ∈ tree_flatten t, treeDepth t ≤ e.1.length + 1) →
    (∀ t ∈ ts, wfTree t = true) → ts ≠ [] → ∀ i,
    ∃ e ∈ flattenListFrom i ts, 1 + depthForest ts ≤ e.1.length + 1 := by
  intro ts
  induction ts with
  | nil => intro _ _ hne; exact absurd rfl hne
  | cons t ts ih =>
    intro hIH hwf _ i
    have hwt := hwf t (List.mem_cons_self _ _)
    rcases le_total (depthForest ts) (treeDepth t) with hle | hle
    · obtain ⟨e, he, hd⟩ := hIH t (List.mem_cons_self _ _) hwt
      refine ⟨(strN i :: e.1, e.2), ?_, ?_⟩
      · rw [flattenListFrom]
        apply List.mem_append_left
        rw [prefixEntries, List.mem_map]
        exact ⟨e, he, rfl⟩
      · rw [depthForest, Nat.max_eq_left hle]
        simp only [List.length_cons]
        omega
    · have htsne : ts ≠ [] := by
        intro h0
        rw [h0, depthForest] at hle
        have := treeDepth_pos t
        omega
      obtain ⟨e, he, hd⟩ := ih (fun t' ht' => hIH t' (List.mem_cons_of_mem _ ht'))
        (fun t' ht' => hwf t' (List.mem_cons_of_mem _ ht')) htsne (i + 1)
      refine ⟨e, ?_, ?_⟩
      · rw [flattenListFrom]
        exact List.mem_append_right _ he
      · rw [depthForest, Nat.max_eq_right hle]
        omega

theorem exists_deep_dict :
    ∀ kvs : List (String × PyTree),
    (∀ kv ∈ kvs, wfTree kv.2 = true →
      ∃ e ∈ tree_flatten kv.2, treeDepth kv.2 ≤ e.1.length + 1) →
    (∀ kv ∈ kvs, wfTree kv.2 = true) → kvs ≠ [] →
    ∃ e ∈ flattenDict kvs, 1 + depthDict kvs ≤ e.1.length + 1 := by
  intro kvs
  induction kvs with
  | nil => intro _ _ hne; exact absurd rfl hne
  | cons kv kvs ih =>
    intro hIH hwf _
    have hwt := hwf kv (List.mem_cons_self _ _)
    rcases le_total (depthDict kvs) (treeDepth kv.2) with hle | hle
    · obtain ⟨e, he, hd⟩ := hIH kv (List.mem_cons_self _ _) hwt
      refine ⟨(kv.1 :: e.1, e.2), ?_, ?_⟩
      · obtain ⟨k0, t0⟩ := kv
        rw [flattenDict]
        apply List.mem_append_left
        rw [prefixEntries, List.mem_map]
        exact ⟨e, he, rfl⟩
      · rw [depthDict, Nat.max_eq_left hle]
        simp only [List.length_cons]
        omega
    · have hkne : kvs ≠ [] := by
        intro h0
        rw [h0, depthDict] at hle
        have := treeDepth_pos kv.2
        omega
      obtain ⟨e, he, hd⟩ := ih (fun kv' hkv' => hIH kv' (List.mem_cons_of_mem _ hkv'))
        (fun kv' hkv' => hwf kv' (List.mem_cons_of_mem _ hkv')) hkne
      refine ⟨e, ?_, ?_⟩
      · obtain ⟨k0, t0⟩ := kv
        rw [flattenDict]
        exact List.mem_append_right _ he
      · rw [depthDict, Nat.max_eq_right hle]
        omega

theorem exists_deep_entry : ∀ t, wfTree t = true →
    ∃ e ∈ tree_flatten t, treeDepth t ≤ e.1.length + 1 := by
  intro t
  induction t using PyTree.inductionOn with
  | hleaf v =>
    intro _
    refine ⟨([], v), by rw [tree_flatten]; simp, ?_⟩
    rw [treeDepth]
    simp
  | hlist ts ih =>
    intro hwf
    obtain ⟨hne, hall⟩ := wfTree_listNode hwf
    obtain ⟨e, he, hd⟩ := exists_deep_forest ts ih hall hne 0
    refine ⟨e, ?_, ?_⟩
    · rw [tree_flatten]
      exact he
    · rw [treeDepth]
      omega
  | hdict kvs ih =>
    intro hwf
    obtain ⟨hne, -, -, hall⟩ := wfTree_dictNode hwf
    obtain ⟨e, he, hd⟩ := exists_deep_dict kvs ih hall hne
    refine ⟨e, ?_, ?_⟩
    · rw [tree_flatten]
      exact he
    · rw [treeDepth]
      omega

theorem depth_le_unflattenFuel {t : PyTree} (hwf : wfTree t = true) :
    treeDepth t ≤ unflattenFuel (tree_flatten t) := by
  obtain ⟨e, he, hd⟩ := exists_deep_entry t hwf
  have := foldl_max_ge_mem (tree_flatten t) 0 e he
  rw [unflattenFuel]
  omega

/-- Round trip of the `mlx.utils` collaborator pair on well-formed optimizer
state trees: unflattening a flattening restores the tree exactly. -/
theorem tree_unflatten_tree_flatten {t : PyTree} (hwf : wfTree t = true) :
    tree_unflatten (tree_flatten t) = some t := by
  rw [tree_unflatten]
  exact tree_unflatten_fuel_flatten t hwf _ (depth_le_unflattenFuel hwf)

/-! ## Selection: the head of the stable descending step sort -/

theorem insertDesc_ne_nil (x : Int × CkptDir) (l : List (Int × CkptDir)) :
    insertDesc x l ≠ [] := by
  cases l with
  | nil => simp [insertDesc]
  | cons y ys =>
    rw [insertDesc]
    split <;> simp

theorem sortStepDesc_ne_nil {cs : List (Int × CkptDir)} (h : cs ≠ []) :
    sortStepDesc cs ≠ [] := by
  cases cs with
  | nil => exact absurd rfl h
  | cons x xs =>
    rw [sortStepDesc]
    exact insertDesc_ne_nil x _

theorem selectLatest_isSome {cs : List (Int × CkptDir)} (h : cs ≠ []) :
    ∃ sd, selectLatest cs = some sd := by
  rw [selectLatest]
  rcases hE : sortStepDesc cs with _ | ⟨y, ys⟩
  · exact absurd hE (sortStepDesc_ne_nil h)
  · exact ⟨y, rfl⟩

/-- The selected candidate is, in enumeration order, the first one whose
recorded step is maximal: every earlier candidate has a strictly smaller
step, and no candidate has a larger one. -/
theorem selectLatest_decomp : ∀ (cs : List (Int × CkptDir)) (s : Int) (d : CkptDir),
    selectLatest cs = some (s, d) →
    ∃ pre post, cs = pre ++ (s, d) :: post ∧
      (∀ c ∈ pre, c.1 < s) ∧ ∀ c ∈ cs, c.1 ≤ s := by
  intro cs
  induction cs with
  | nil =>
    intro s d h
    rw [selectLatest, sortStepDesc] at h
    cases h
  | cons x xs ih =>
    intro s d h
    rw [selectLatest, sortStepDesc] at h
    cases xs with
    | nil =>
      rw [sortStepDesc, insertDesc, List.head?_cons, Option.some_inj] at h
      refine ⟨[], [], ?_, by simp, ?_⟩
      · rw [h]
        simp
      · intro c hc
        rw [List.mem_singleton] at hc
        rw [hc, h]
    | cons x1 xs1 =>
      obtain ⟨⟨s', d'⟩, hsel⟩ := selectLatest_isSome (List.cons_ne_nil x1 xs1)
      obtain ⟨pre, post, hsplit, hpre, hall⟩ := ih s' d' hsel
      rcases hE : sortStepDesc (x1 :: xs1) with _ | ⟨y, ys⟩
      · exact absurd hE (sortStepDesc_ne_nil (List.cons_ne_nil x1 xs1))
      · have hy : y = (s', d') := by
          rw [selectLatest, hE, List.head?_cons, Option.some_inj] at hsel
          exact hsel
        rw [hE, insertDesc] at h
        by_cases hlt : x.1 < y.1
        · rw [if_pos hlt, List.head?_cons, Option.some_inj] at h
          rw [hy] at h
          obtain ⟨hs', hd'⟩ := Prod.mk.injEq .. ▸ h
          subst hs'
          subst hd'
          refine ⟨x :: pre, post, ?_, ?_, ?_⟩
          · rw [List.cons_append, hsplit]
          · intro c hc
            rcases List.mem_cons.mp hc with he | hm
            · subst he
              rw [hy] at hlt
              exact hlt
            · exact hpre c hm
          · intro c hc
            rcases List.mem_cons.mp hc with he | hm
            · subst he
              rw [hy] at hlt
              exact le_of_lt hlt
            · exact hall c hm
        · rw [if_neg hlt, List.head?_cons, Option.some_inj] at h
          refine ⟨[], x1 :: xs1, ?_, by simp, ?_⟩
          · rw [h]
            simp
          · intro c hc
            have hxy : y.1 ≤ x.1 := le_of_not_lt hlt
            rw [hy] at hxy
            have hs : x.1 = s := by rw [h]
            have hfin : s' ≤ s := by
              rw [← hs]
              exact hxy
            rcases List.mem_cons.mp hc with he | hm
            · subst he
              exact le_of_eq hs
            · exact le_trans (hall c hm) hfin

/-! ## The candidate scan -/

theorem collectCandidates_skip {d : CkptDir} (hmeta : d.metadata = none)
    (es : List RootEntry) :
    collectCandidates (.dir d :: es) = collectCandidates es := by
  rw [collectCandidates, readCandidate, hmeta]
  rcases collectCandidates es with e | cs <;> rfl

theorem collectCandidates_file (n : String) (es : List RootEntry) :
    collectCandidates (.file n :: es) = collectCandidates es := by
  rw [collectCandidates, readCandidate]
  rcases collectCandidates es with e | cs <;> rfl

theorem collectCandidates_append (es₁ es₂ : List RootEntry) :
    collectCandidates (es₁ ++ es₂) =
      match collectCandidates es₁ with
      | .error e => .error e
      | .ok c₁ =>
        match collectCandidates es₂ with
        | .error e => .error e
        | .ok c₂ => .ok (c₁ ++ c₂) := by
  induction es₁ with
  | nil =>
    rw [List.nil_append, collectCandidates]
    rcases collectCandidates es₂ with e | cs <;> rfl
  | cons e es₁ ih =>
    rw [List.cons_append, collectCandidates, collectCandidates, ih]
    rcases readCandidate e with err | c
    · rfl
    · rcases collectCandidates es₁ with err | c₁
      · rfl
      · rcases collectCandidates es₂ with err | c₂
        · rcases c with _ | x <;> rfl
        · rcases c with _ | x <;> simp

theorem collectCandidates_error_of_corrupt :
    ∀ (es : List RootEntry) (d : CkptDir), RootEntry.dir d ∈ es →
    d.metadata = some .corrupt →
    ∃ e, collectCandidates es = .error e := by
  intro es
  induction es with
  | nil =>
    intro d hd
    cases hd
  | cons e es ih =>
    intro d hd hcor
    rcases List.mem_cons.mp hd with he | hm
    · subst he
      rw [collectCandidates, readCandidate, hcor]
      exact ⟨"unreadable metadata", rfl⟩
    · obtain ⟨err, herr⟩ := ih d hm hcor
      rw [collectCandidates, herr]
      rcases readCandidate e with err' | c
      · exact ⟨err', rfl⟩
      · exact ⟨err, rfl⟩

theorem collectCandidates_all_absent :
    ∀ es : List RootEntry, (∀ d : CkptDir, RootEntry.dir d ∈ es → d.metadata = none) →
    collectCandidates es = .ok [] := by
  intro es
  induction es with
  | nil => intro _; rfl
  | cons e es ih =>
    intro h
    rcases e with n | d
    · rw [collectCandidates_file]
      exact ih (fun d hd => h d (List.mem_cons_of_mem _ hd))
    · rw [collectCandidates_skip (h d (List.mem_cons_self _ _))]
      exact ih (fun d hd => h d (List.mem_cons_of_mem _ hd))

/-! ## Computing `save_checkpoint` and unfolding `load_checkpoint` -/

theorem save_checkpoint_none (M : Model) (O : Optimizer) (S : Int)
    (is_final : Bool) (dl : Option DataLoader) :
    save_checkpoint M O S none is_final dl =
      .ok (some [.dir ⟨checkpointName is_final S, some M.weights,
        some (pyDict (tree_flatten O.state)),
        some (.good (savedMetaData S dl))⟩]) := by
  rw [save_checkpoint, saveScript]
  simp [runOps, runOp, makedirs, writeArtifact, setArtifact, entryName,
    Except.map, Function.comp]

theorem save_checkpoint_existing (M : Model) (O : Optimizer) (S : Int)
    (is_final : Bool) (dl : Option DataLoader) (d : CkptDir)
    (hname : d.name = checkpointName is_final S) :
    save_checkpoint M O S (some [.dir d]) is_final dl =
      .ok (some [.dir ⟨d.name, some M.weights,
        some (pyDict (tree_flatten O.state)),
        some (.good (savedMetaData S dl))⟩]) := by
  rw [save_checkpoint, saveScript]
  simp [runOps, runOp, makedirs, writeArtifact, setArtifact, entryName, hname,
    Except.map, Function.comp]

theorem loadCursor_none_loader (lt : String → Tokens) (m : MetaData) :
    loadCursor lt none m = .ok (cursorOfMeta m, none) := by
  rw [loadCursor, cursorOfMeta]
  rcases m.data_shard with _ | ds <;> rcases m.data_position with _ | dp <;> rfl

theorem load_checkpoint_none_root (m₀ : Model) (o₀ : Optimizer)
    (dlArg : Option DataLoader) (lt : String → Tokens) :
    load_checkpoint m₀ o₀ none dlArg lt = .ok ⟨0, none, m₀, o₀, dlArg⟩ := rfl

theorem load_checkpoint_no_candidates {entries : List RootEntry}
    (hc : collectCandidates entries = .ok []) (m₀ : Model) (o₀ : Optimizer)
    (dlArg : Option DataLoader) (lt : String → Tokens) :
    load_checkpoint m₀ o₀ (some entries) dlArg lt = .ok ⟨0, none, m₀, o₀, dlArg⟩ := by
  simp [load_checkpoint, hc, selectLatest, sortStepDesc]

theorem load_checkpoint_selected {m₀ : Model} {o₀ : Optimizer}
    {entries : List RootEntry} {dlArg : Option DataLoader} {lt : String → Tokens}
    {cands : List (Int × CkptDir)} {s : Int} {d : CkptDir}
    (hc : collectCandidates entries = .ok cands)
    (hs : selectLatest cands = some (s, d)) :
    load_checkpoint m₀ o₀ (some entries) dlArg lt =
      loadSelected m₀ o₀ dlArg lt s d := by
  simp [load_checkpoint, hc, hs]

theorem load_checkpoint_error {m₀ : Model} {o₀ : Optimizer}
    {entries : List RootEntry} {dlArg : Option DataLoader} {lt : String → Tokens}
    {err : String} (hc : collectCandidates entries = .error err) :
    load_checkpoint m₀ o₀ (some entries) dlArg lt = .error err := by
  simp [load_checkpoint, hc]

/-! ## The loader never parses directory names -/

theorem readCandidate_rename (f : String → String) (e : RootEntry) :
    readCandidate (renameEntry f e) =
      (readCandidate e).map (Option.map (fun c => (c.1, renameDir f c.2))) := by
  rcases e with n | d
  · rfl
  · rw [renameEntry]
    rcases hm : d.metadata with _ | mf
    · simp [readCandidate, renameDir, hm, Except.map]
    · rcases mf with m | _
      · rcases hs : m.step with _ | s
        · simp [readCandidate, renameDir, hm, hs, Except.map]
        · simp [readCandidate, renameDir, hm, hs, Except.map]
      · simp [readCandidate, renameDir, hm, Except.map]

theorem collectCandidates_rename (f : String → String) : ∀ es : List RootEntry,
    collectCandidates (es.map (renameEntry f)) =
      (collectCandidates es).map (List.map (fun c => (c.1, renameDir f c.2))) := by
  intro es
  induction es with
  | nil => rfl
  | cons e es ih =>
    rw [List.map_cons, collectCandidates, collectCandidates,
      readCandidate_rename, ih]
    rcases readCandidate e with err | c
    · rfl
    · rcases collectCandidates es with err | cs
      · rcases c with _ | x <;> rfl
      · rcases c with _ | x <;> simp [Except.map]

theorem insertDesc_rename (f : String → String) (x : Int × CkptDir) :
    ∀ l : List (Int × CkptDir),
    insertDesc (x.1, renameDir f x.2) (l.map (fun c => (c.1, renameDir f c.2))) =
      (insertDesc x l).map (fun c => (c.1, renameDir f c.2)) := by
  intro l
  induction l with
  | nil => rfl
  | cons y ys ih =>
    rw [List.map_cons, insertDesc, insertDesc]
    by_cases h : x.1 < y.1
    · rw [if_pos h, if_pos h, List.map_cons, ih]
    · rw [if_neg h, if_neg h, List.map_cons, List.map_cons]

theorem sortStepDesc_rename (f : String → String) : ∀ cs : List (Int × CkptDir),
    sortStepDesc (cs.map (fun c => (c.1, renameDir f c.2))) =
      (sortStepDesc cs).map (fun c => (c.1, renameDir f c.2)) := by
  intro cs
  induction cs with
  | nil => rfl
  | cons x xs ih =>
    rw [List.map_cons, sortStepDesc, sortStepDesc, ih, insertDesc_rename]

theorem selectLatest_rename (f : String → String) (cs : List (Int × CkptDir)) :
    selectLatest (cs.map (fun c => (c.1, renameDir f c.2))) =
      (selectLatest cs).map (fun c => (c.1, renameDir f c.2)) := by
  rw [selectLatest, selectLatest, sortStepDesc_rename, List.head?_map]

theorem loadSelected_rename (m₀ : Model) (o₀ : Optimizer)
    (dlArg : Option DataLoader) (lt : String → Tokens) (s : Int)
    (f : String → String) (d : CkptDir) :
    loadSelected m₀ o₀ dlArg lt s (renameDir f d) =
      loadSelected m₀ o₀ dlArg lt s d := rfl

/-! ## Loading a single checkpoint directory -/

theorem collectCandidates_single_good {d : CkptDir} {md : MetaData} {s : Int}
    (hmeta : d.metadata = some (.good md)) (hstep : md.step = some s) :
    collectCandidates [.dir d] = .ok [(s, d)] := by
  simp [collectCandidates, readCandidate, hmeta, hstep]

theorem selectLatest_single (s : Int) (d : CkptDir) :
    selectLatest [(s, d)] = some (s, d) := by
  simp [selectLatest, sortStepDesc, insertDesc]

theorem loadSelected_ok_next_step {m₀ : Model} {o₀ : Optimizer}
    {dlArg : Option DataLoader} {lt : String → Tokens} {s : Int} {d : CkptDir}
    {r : LoadResult} (h : loadSelected m₀ o₀ dlArg lt s d = .ok r) :
    r.next_step = s + 1 := by
  rw [loadSelected] at h
  rcases hOpt : loadOptimizerState o₀ d with e | opt <;> rw [hOpt] at h
  · cases h
  · dsimp only at h
    rcases hMeta : readMetaFile d with e | m <;> rw [hMeta] at h
    · cases h
    · dsimp only at h
      rcases hCur : loadCursor lt dlArg m with e | ⟨cursor, dlOut⟩ <;> rw [hCur] at h
      · cases h
      · dsimp only at h
        injection h with h2
        rw [← h2]

theorem loadCursor_ok_cursor {lt : String → Tokens} {dlArg : Option DataLoader}
    {m : MetaData} {c : Option LoaderState} {dlo : Option DataLoader}
    (h : loadCursor lt dlArg m = .ok (c, dlo)) : c = cursorOfMeta m := by
  rw [loadCursor] at h
  rw [cursorOfMeta]
  rcases hds : m.data_shard with _ | ds <;> rw [hds] at h <;>
    rcases hdp : m.data_position with _ | dp <;> rw [hdp] at h
  · injection h with h2
    injection h2 with hc hdlo
    rw [← hc]
  · injection h with h2
    injection h2 with hc hdlo
    rw [← hc]
  · injection h with h2
    injection h2 with hc hdlo
    rw [← hc]
  · rcases dlArg with _ | dl
    · injection h with h2
      injection h2 with hc hdlo
      rw [← hc]
    · dsimp only at h
      rcases hre : restoreLoader lt dl ds dp with e | dl' <;> rw [hre] at h
      · cases h
      · injection h with h2
        injection h2 with hc hdlo
        rw [← hc]

/-- Loading a root holding one directory with readable metadata, the saved
(flattened) optimizer artifact and model weights, with no live loader. -/
theorem load_single_full (m₀ : Model) (o₀ : Optimizer) (lt : String → Tokens)
    (nm : String) (w : Weights) (st : PyTree) (md : MetaData) (s : Int)
    (hwf : wfTree st = true) (hstep : md.step = some s) :
    load_checkpoint m₀ o₀ (some [.dir ⟨nm, some w,
        some (pyDict (tree_flatten st)), some (.good md)⟩]) none lt
      = .ok ⟨s + 1, cursorOfMeta md, ⟨w⟩, ⟨st⟩, none⟩ := by
  rw [load_checkpoint_selected (collectCandidates_single_good rfl hstep)
    (selectLatest_single s _), loadSelected]
  rw [show loadOptimizerState o₀ ⟨nm, some w, some (pyDict (tree_flatten st)),
      some (.good md)⟩ = .ok ⟨st⟩ by
    rw [loadOptimizerState]
    simp [pyDict_eq_self (tree_flatten_keys_nodup st hwf),
      tree_unflatten_tree_flatten hwf]]
  rw [show readMetaFile ⟨nm, some w, some (pyDict (tree_flatten st)),
      some (.good md)⟩ = .ok md from rfl]
  dsimp only
  rw [loadCursor_none_loader]
  dsimp only [loadModelWeights]

/-! # The claims -/

/-- C1: Round-trip: for every step `S ≥ 0`, model state `M`, well-formed
optimizer state `O`, and data-loader cursor (the loader `dl`'s current shard
and position), `save_checkpoint` into a fresh root followed by
`load_checkpoint` on the same root restores model, optimizer and cursor
values observably equal to the saved ones, and returns
`next_step = S + 1`. -/
theorem claim_C1_roundtrip (M : Model) (O : Optimizer) (S : Int)
    (dl : DataLoader) (m₀ : Model) (o₀ : Optimizer) (lt : String → Tokens)
    (hS : 0 ≤ S) (hwf : wfTree O.state = true) :
    ∃ fs₁ : FS, save_checkpoint M O S none false (some dl) = .ok fs₁ ∧
      load_checkpoint m₀ o₀ fs₁ none lt =
        .ok ⟨S + 1, some ⟨dl.current_shard, dl.current_position⟩, M, O, none⟩ := by
  refine ⟨_, save_checkpoint_none M O S false (some dl), ?_⟩
  have h := load_single_full m₀ o₀ lt (checkpointName false S) M.weights O.state
    (savedMetaData S (some dl)) S hwf (by rw [savedMetaData])
  rw [h]
  rfl

/-- Witness for C1: step 3, the demo model and optimizer, a loader at shard
2, position 100. -/
theorem claim_C1_roundtrip_witness :
    (0 ≤ (3 : Int) ∧ wfTree demoOpt.state = true) ∧
    (∃ fs₁ : FS,
      save_checkpoint demoModel demoOpt 3 none false (some demoDL) = .ok fs₁ ∧
      load_checkpoint ⟨[]⟩ ⟨.leaf 0⟩ fs₁ none (fun _ => []) =
        .ok ⟨3 + 1, some ⟨2, 100⟩, demoModel, demoOpt, none⟩) := by
  have hwf : wfTree demoOpt.state = true := by
    simp +decide [demoOpt, demoState, wfTree, wfForest, wfDict]
  refine ⟨⟨by norm_num, hwf⟩, ?_⟩
  exact claim_C1_roundtrip demoModel demoOpt 3 demoDL ⟨[]⟩ ⟨.leaf 0⟩
    (fun _ => []) (by norm_num) hwf

/-- C2: Latest-wins selection: whenever the scan of the root yields a
nonempty candidate list and the load succeeds, the returned `next_step` is
the maximal recorded step plus one; and the loader never parses directory
names: renaming every entry arbitrarily leaves the result of
`load_checkpoint` unchanged (so `final` and `checkpoint_step_<N>` directories
participate purely through their recorded `step`). -/
theorem claim_C2_latest_wins :
    (∀ (m₀ : Model) (o₀ : Optimizer) (entries : List RootEntry)
       (dlArg : Option DataLoader) (lt : String → Tokens)
       (cands : List (Int × CkptDir)) (r : LoadResult),
       collectCandidates entries = .ok cands → cands ≠ [] →
       load_checkpoint m₀ o₀ (some entries) dlArg lt = .ok r →
       (∃ c ∈ cands, c.1 + 1 = r.next_step) ∧
         ∀ c ∈ cands, c.1 + 1 ≤ r.next_step) ∧
    (∀ (m₀ : Model) (o₀ : Optimizer) (fs : FS) (dlArg : Option DataLoader)
       (lt : String → Tokens) (f : String → String),
       load_checkpoint m₀ o₀ (fs.map (fun es => es.map (renameEntry f))) dlArg lt =
         load_checkpoint m₀ o₀ fs dlArg lt) := by
  constructor
  · intro m₀ o₀ entries dlArg lt cands r hc hne hload
    obtain ⟨⟨s, d⟩, hsel⟩ := selectLatest_isSome hne
    rw [load_checkpoint_selected hc hsel] at hload
    have hstep := loadSelected_ok_next_step hload
    obtain ⟨pre, post, hsplit, hpre, hall⟩ := selectLatest_decomp cands s d hsel
    constructor
    · refine ⟨(s, d), ?_, by rw [hstep]⟩
      rw [hsplit]
      exact List.mem_append_right _ (List.mem_cons_self _ _)
    · intro c hcand
      rw [hstep]
      have := hall c hcand
      omega
  · intro m₀ o₀ fs dlArg lt f
    rcases fs with _ | es
    · rfl
    · dsimp only [Option.map]
      rcases hc : collectCandidates es with err | cands
      · have hc' : collectCandidates (es.map (renameEntry f)) = .error err := by
          rw [collectCandidates_rename, hc]
          rfl
        rw [load_checkpoint_error hc, load_checkpoint_error hc']
      · have hc' : collectCandidates (es.map (renameEntry f))
            = .ok (cands.map (fun c => (c.1, renameDir f c.2))) := by
          rw [collectCandidates_rename, hc]
          rfl
        rcases hsel : selectLatest cands with _ | ⟨s, d⟩
        · have hsel' : selectLatest (cands.map (fun c => (c.1, renameDir f c.2)))
              = none := by
            rw [selectLatest_rename, hsel]
            rfl
          simp [load_checkpoint, hc, hc', hsel, hsel']
        · have hsel' : selectLatest (cands.map (fun c => (c.1, renameDir f c.2)))
              = some (s, renameDir f d) := by
            rw [selectLatest_rename, hsel]
            rfl
          rw [load_checkpoint_selected hc hsel,
            load_checkpoint_selected hc' hsel', loadSelected_rename]

/-- Witness for C2: candidates recorded at steps 3, 7 and 5 (the spec's own
example); the loader picks step 7 and returns `next_step = 8`, and renaming
all three directories changes nothing. -/
theorem claim_C2_latest_wins_witness :
    (collectCandidates [.dir (demoDirAt "a" 3 1), .dir (demoDirAt "b" 7 2),
        .dir (demoDirAt "c" 5 3)]
      = .ok [(3, demoDirAt "a" 3 1), (7, demoDirAt "b" 7 2),
             (5, demoDirAt "c" 5 3)] ∧
     [(3, demoDirAt "a" 3 1), (7, demoDirAt "b" 7 2), (5, demoDirAt "c" 5 3)]
       ≠ [] ∧
     load_checkpoint ⟨[]⟩ ⟨.leaf 0⟩
        (some [.dir (demoDirAt "a" 3 1), .dir (demoDirAt "b" 7 2),
          .dir (demoDirAt "c" 5 3)]) none (fun _ => [])
       = .ok ⟨8, none, ⟨[("w", 2)]⟩, ⟨.leaf 0⟩, none⟩) ∧
    ((∃ c ∈ [(3, demoDirAt "a" 3 1), (7, demoDirAt "b" 7 2),
        (5, demoDirAt "c" 5 3)], c.1 + 1 = (8 : Int)) ∧
     (∀ c ∈ [(3, demoDirAt "a" 3 1), (7, demoDirAt "b" 7 2),
        (5, demoDirAt "c" 5 3)], c.1 + 1 ≤ (8 : Int))) ∧
    load_checkpoint ⟨[]⟩ ⟨.leaf 0⟩
        (some ([.dir (demoDirAt "a" 3 1), .dir (demoDirAt "b" 7 2),
          .dir (demoDirAt "c" 5 3)].map (renameEntry (fun _ => "final"))))
        none (fun _ => [])
      = load_checkpoint ⟨[]⟩ ⟨.leaf 0⟩
        (some [.dir (demoDirAt "a" 3 1), .dir (demoDirAt "b" 7 2),
          .dir (demoDirAt "c" 5 3)]) none (fun _ => []) := by
  refine ⟨⟨rfl, by simp, rfl⟩, ?_, ?_⟩
  · exact claim_C2_latest_wins.1 ⟨[]⟩ ⟨.leaf 0⟩
      [.dir (demoDirAt "a" 3 1), .dir (demoDirAt "b" 7 2),
        .dir (demoDirAt "c" 5 3)] none (fun _ => [])
      [(3, demoDirAt "a" 3 1), (7, demoDirAt "b" 7 2), (5, demoDirAt "c" 5 3)]
      ⟨8, none, ⟨[("w", 2)]⟩, ⟨.leaf 0⟩, none⟩ rfl (by simp) rfl
  · exact claim_C2_latest_wins.2 ⟨[]⟩ ⟨.leaf 0⟩
      (some [.dir (demoDirAt "a" 3 1), .dir (demoDirAt "b" 7 2),
        .dir (demoDirAt "c" 5 3)]) none (fun _ => []) (fun _ => "final")

/-- C3 counterexample: a root holding one directory with a *corrupt* (present
but unreadable) metadata file next to a perfectly valid step-7 checkpoint.
The claim says the corrupt directory is excluded and the load proceeds with
the remaining candidate; the code instead propagates the `mx.load` exception
(there is no try/except around line 52), so the whole load fails. -/
theorem claim_C3_counterexample :
    load_checkpoint demoModel demoOpt
      (some [.dir corruptDir, .dir (demoDirAt "checkpoint_step_7" 7 2)])
      none (fun _ => []) = .error "unreadable metadata" := rfl

/-- C3 amended: a directory whose metadata file is *absent* is excluded from
candidacy and the load proceeds as if it were not there; but a directory
whose metadata file exists and is unreadable/corrupt makes the whole
`load_checkpoint` raise. -/
theorem claim_C3_amended :
    (∀ (m₀ : Model) (o₀ : Optimizer) (es₁ es₂ : List RootEntry) (d : CkptDir)
       (dlArg : Option DataLoader) (lt : String → Tokens),
       d.metadata = none →
       load_checkpoint m₀ o₀ (some (es₁ ++ .dir d :: es₂)) dlArg lt =
         load_checkpoint m₀ o₀ (some (es₁ ++ es₂)) dlArg lt) ∧
    (∀ (m₀ : Model) (o₀ : Optimizer) (es : List RootEntry) (d : CkptDir)
       (dlArg : Option DataLoader) (lt : String → Tokens),
       .dir d ∈ es → d.metadata = some .corrupt →
       ∃ e, load_checkpoint m₀ o₀ (some es) dlArg lt = .error e) := by
  constructor
  · intro m₀ o₀ es₁ es₂ d dlArg lt hmeta
    have hcoll : collectCandidates (es₁ ++ .dir d :: es₂)
        = collectCandidates (es₁ ++ es₂) := by
      rw [collectCandidates_append, collectCandidates_append,
        collectCandidates_skip hmeta]
    simp only [load_checkpoint, hcoll]
  · intro m₀ o₀ es d dlArg lt hmem hcor
    obtain ⟨e, he⟩ := collectCandidates_error_of_corrupt es d hmem hcor
    exact ⟨e, load_checkpoint_error he⟩

/-- Witness for the amended C3: skipping a metadata-less directory, and the
raise on a corrupt one sitting next to a valid candidate. -/
theorem claim_C3_amended_witness :
    ((⟨"nometa", none, none, none⟩ : CkptDir).metadata = none ∧
     load_checkpoint ⟨[]⟩ ⟨.leaf 0⟩
        (some ([] ++ .dir ⟨"nometa", none, none, none⟩
          :: [.dir (demoDirAt "b" 7 2)])) none (fun _ => [])
       = load_checkpoint ⟨[]⟩ ⟨.leaf 0⟩
          (some ([] ++ [.dir (demoDirAt "b" 7 2)])) none (fun _ => [])) ∧
    (RootEntry.dir corruptDir
        ∈ [RootEntry.dir corruptDir, .dir (demoDirAt "b" 7 2)] ∧
     corruptDir.metadata = some .corrupt ∧
     ∃ e, load_checkpoint ⟨[]⟩ ⟨.leaf 0⟩
        (some [.dir corruptDir, .dir (demoDirAt "b" 7 2)]) none (fun _ => [])
       = .error e) := by
  refine ⟨⟨rfl, ?_⟩, List.mem_cons_self _ _, rfl, ?_⟩
  · exact claim_C3_amended.1 ⟨[]⟩ ⟨.leaf 0⟩ [] [.dir (demoDirAt "b" 7 2)]
      ⟨"nometa", none, none, none⟩ none (fun _ => []) rfl
  · exact claim_C3_amended.2 ⟨[]⟩ ⟨.leaf 0⟩
      [.dir corruptDir, .dir (demoDirAt "b" 7 2)] corruptDir none
      (fun _ => []) (List.mem_cons_self _ _) rfl

/-- C4 counterexample: a root that exists but contains no directory with
*readable* metadata — its only directory has a corrupt metadata file.  The
claim says such a load returns `(0, none)` without error; the code raises
instead. -/
theorem claim_C4_counterexample :
    load_checkpoint demoModel demoOpt (some [.dir corruptDir]) none
      (fun _ => []) = .error "unreadable metadata" := rfl

/-- C4 amended: when the root does not exist, or none of its subdirectories
has a metadata file *present*, `load_checkpoint` returns `(0, none)`
normally and leaves the supplied model and optimizer unchanged (a present
but unreadable metadata file raises instead). -/
theorem claim_C4_amended :
    (∀ (m₀ : Model) (o₀ : Optimizer) (dlArg : Option DataLoader)
       (lt : String → Tokens),
       load_checkpoint m₀ o₀ none dlArg lt = .ok ⟨0, none, m₀, o₀, dlArg⟩) ∧
    (∀ (m₀ : Model) (o₀ : Optimizer) (es : List RootEntry)
       (dlArg : Option DataLoader) (lt : String → Tokens),
       (∀ d : CkptDir, .dir d ∈ es → d.metadata = none) →
       load_checkpoint m₀ o₀ (some es) dlArg lt = .ok ⟨0, none, m₀, o₀, dlArg⟩) := by
  constructor
  · intro m₀ o₀ dlArg lt
    rfl
  · intro m₀ o₀ es dlArg lt h
    exact load_checkpoint_no_candidates (collectCandidates_all_absent es h) _ _ _ _

/-- Witness for the amended C4: a nonexistent root, and a root holding one
plain file plus one directory without metadata. -/
theorem claim_C4_amended_witness :
    ((∀ d : CkptDir, RootEntry.dir d ∈ [RootEntry.file "log.txt",
        RootEntry.dir ⟨"checkpoint_step_1", some [("w", 1)], none, none⟩] →
        d.metadata = none) ∧
     load_checkpoint ⟨[]⟩ ⟨.leaf 0⟩ (some [RootEntry.file "log.txt",
        RootEntry.dir ⟨"checkpoint_step_1", some [("w", 1)], none, none⟩])
        none (fun _ => []) = .ok ⟨0, none, ⟨[]⟩, ⟨.leaf 0⟩, none⟩) ∧
    load_checkpoint ⟨[]⟩ ⟨.leaf 0⟩ none none (fun _ => [])
      = .ok ⟨0, none, ⟨[]⟩, ⟨.leaf 0⟩, none⟩ := by
  have habs : ∀ d : CkptDir, RootEntry.dir d ∈ [RootEntry.file "log.txt",
      RootEntry.dir ⟨"checkpoint_step_1", some [("w", 1)], none, none⟩] →
      d.metadata = none := by
    intro d hd
    simp at hd
    subst hd
    rfl
  refine ⟨⟨habs, ?_⟩, claim_C4_amended.1 ⟨[]⟩ ⟨.leaf 0⟩ none (fun _ => [])⟩
  exact claim_C4_amended.2 ⟨[]⟩ ⟨.leaf 0⟩ _ none (fun _ => []) habs

/-- A successful load of a single-directory root reports exactly the cursor
determined by the selected metadata. -/
theorem load_single_ok_cursor {m₀ : Model} {o₀ : Optimizer}
    {lt : String → Tokens} {d : CkptDir} {md : MetaData} {s : Int}
    {dlArg : Option DataLoader} {r : LoadResult}
    (hmeta : d.metadata = some (.good md)) (hstep : md.step = some s)
    (hload : load_checkpoint m₀ o₀ (some [.dir d]) dlArg lt = .ok r) :
    r.cursor = cursorOfMeta md := by
  rw [load_checkpoint_selected (collectCandidates_single_good hmeta hstep)
    (selectLatest_single s d), loadSelected] at hload
  rcases hOpt : loadOptimizerState o₀ d with e | opt <;> rw [hOpt] at hload
  · cases hload
  · dsimp only at hload
    rw [show readMetaFile d = .ok md by rw [readMetaFile, hmeta]] at hload
    dsimp only at hload
    rcases hCur : loadCursor lt dlArg md with e | ⟨c, dlo⟩ <;> rw [hCur] at hload
    · cases hload
    · dsimp only at hload
      injection hload with h2
      rw [← h2]
      exact loadCursor_ok_cursor hCur

/-- C5: Partial-checkpoint tolerance and frame condition: for a selected
directory with readable metadata recording step `s` but no optimizer-state
artifact, the load succeeds, leaves the optimizer unchanged, restores the
model weights exactly when they are present, and returns `s + 1`;
symmetrically, a missing model-weights artifact leaves the model instance
unchanged while the rest of the load proceeds. -/
theorem claim_C5_partial_tolerance (m₀ : Model) (o₀ : Optimizer)
    (lt : String → Tokens) (d : CkptDir) (md : MetaData) (s : Int)
    (hmeta : d.metadata = some (.good md)) (hstep : md.step = some s) :
    (d.optimizer_state = none →
      load_checkpoint m₀ o₀ (some [.dir d]) none lt =
        .ok ⟨s + 1, cursorOfMeta md, loadModelWeights m₀ d, o₀, none⟩) ∧
    (∀ w, d.model_weights = some w → loadModelWeights m₀ d = ⟨w⟩) ∧
    (d.model_weights = none → ∀ r,
      load_checkpoint m₀ o₀ (some [.dir d]) none lt = .ok r → r.model = m₀) := by
  refine ⟨?_, ?_, ?_⟩
  · intro hopt
    rw [load_checkpoint_selected (collectCandidates_single_good hmeta hstep)
      (selectLatest_single s d), loadSelected]
    rw [show loadOptimizerState o₀ d = .ok o₀ by rw [loadOptimizerState, hopt]]
    dsimp only
    rw [show readMetaFile d = .ok md by rw [readMetaFile, hmeta]]
    dsimp only
    rw [loadCursor_none_loader]
  · intro w hw
    rw [loadModelWeights, hw]
  · intro hw r hload
    rw [load_checkpoint_selected (collectCandidates_single_good hmeta hstep)
      (selectLatest_single s d), loadSelected] at hload
    rcases hOpt : loadOptimizerState o₀ d with e | opt <;> rw [hOpt] at hload
    · cases hload
    · dsimp only at hload
      rcases hMeta : readMetaFile d with e | m <;> rw [hMeta] at hload
      · cases hload
      · dsimp only at hload
        rcases hCur : loadCursor lt none m with e | ⟨c, dlo⟩ <;> rw [hCur] at hload
        · cases hload
        · dsimp only at hload
          injection hload with h2
          rw [← h2]
          dsimp only
          rw [loadModelWeights, hw]

/-- Witness for C5: a directory with model weights, readable metadata at
step 4, and no optimizer artifact. -/
theorem claim_C5_partial_tolerance_witness :
    ((⟨"cp4", some [("w", 5)], none,
        some (.good ⟨some 4, none, none⟩)⟩ : CkptDir).metadata
      = some (.good ⟨some 4, none, none⟩) ∧
     (⟨some 4, none, none⟩ : MetaData).step = some 4) ∧
    ((⟨"cp4", some [("w", 5)], none,
        some (.good ⟨some 4, none, none⟩)⟩ : CkptDir).optimizer_state = none →
      load_checkpoint ⟨[]⟩ ⟨.leaf 0⟩
        (some [.dir ⟨"cp4", some [("w", 5)], none,
          some (.good ⟨some 4, none, none⟩)⟩]) none (fun _ => []) =
        .ok ⟨4 + 1, cursorOfMeta ⟨some 4, none, none⟩,
          loadModelWeights ⟨[]⟩ ⟨"cp4", some [("w", 5)], none,
            some (.good ⟨some 4, none, none⟩)⟩, ⟨.leaf 0⟩, none⟩) := by
  refine ⟨⟨rfl, rfl⟩, ?_⟩
  exact (claim_C5_partial_tolerance ⟨[]⟩ ⟨.leaf 0⟩ (fun _ => [])
    ⟨"cp4", some [("w", 5)], none, some (.good ⟨some 4, none, none⟩)⟩
    ⟨some 4, none, none⟩ 4 rfl rfl).1

/-- C6: Cursor pairing invariant: a successful load reports a cursor exactly
when both `data_shard` and `data_position` are present in the selected
metadata (one alone never yields a cursor), with the recorded pair as its
value; the reported cursor does not depend on whether a live loader was
supplied; and `save_checkpoint` writes `data_shard`/`data_position` together
when a loader is supplied and neither when it is not. -/
theorem claim_C6_cursor_pairing :
    (∀ (m₀ : Model) (o₀ : Optimizer) (lt : String → Tokens) (d : CkptDir)
       (md : MetaData) (dlArg : Option DataLoader) (r : LoadResult) (s : Int),
       d.metadata = some (.good md) → md.step = some s →
       load_checkpoint m₀ o₀ (some [.dir d]) dlArg lt = .ok r →
       (r.cursor ≠ none ↔ md.data_shard ≠ none ∧ md.data_position ≠ none) ∧
       ∀ ds dp, md.data_shard = some ds → md.data_position = some dp →
         r.cursor = some ⟨ds, dp⟩) ∧
    (∀ (m₀ : Model) (o₀ : Optimizer) (lt : String → Tokens) (d : CkptDir)
       (dl : DataLoader) (r : LoadResult) (s : Int) (md : MetaData),
       d.metadata = some (.good md) → md.step = some s →
       load_checkpoint m₀ o₀ (some [.dir d]) (some dl) lt = .ok r →
       ∃ r₀, load_checkpoint m₀ o₀ (some [.dir d]) none lt = .ok r₀ ∧
         r₀.cursor = r.cursor) ∧
    (∀ (M : Model) (O : Optimizer) (S : Int) (is_final : Bool) (dl : DataLoader),
       save_checkpoint M O S none is_final (some dl) =
         .ok (some [.dir ⟨checkpointName is_final S, some M.weights,
           some (pyDict (tree_flatten O.state)),
           some (.good ⟨some S, some dl.current_shard,
             some dl.current_position⟩)⟩])) ∧
    (∀ (M : Model) (O : Optimizer) (S : Int) (is_final : Bool),
       save_checkpoint M O S none is_final none =
         .ok (some [.dir ⟨checkpointName is_final S, some M.weights,
           some (pyDict (tree_flatten O.state)),
           some (.good ⟨some S, none, none⟩)⟩])) := by
  refine ⟨?_, ?_, ?_, ?_⟩
  · intro m₀ o₀ lt d md dlArg r s hmeta hstep hload
    have hc := load_single_ok_cursor hmeta hstep hload
    constructor
    · rw [hc, cursorOfMeta]
      rcases md.data_shard with _ | ds <;> rcases md.data_position with _ | dp <;>
        simp
    · intro ds dp hds hdp
      rw [hc, cursorOfMeta, hds, hdp]
  · intro m₀ o₀ lt d dl r s md hmeta hstep hload
    have hc := load_single_ok_cursor hmeta hstep hload
    rw [load_checkpoint_selected (collectCandidates_single_good hmeta hstep)
      (selectLatest_single s d), loadSelected] at hload
    rcases hOpt : loadOptimizerState o₀ d with e | opt <;> rw [hOpt] at hload
    · cases hload
    · refine ⟨⟨s + 1, cursorOfMeta md, loadModelWeights m₀ d, opt, none⟩, ?_, by rw [hc]⟩
      rw [load_checkpoint_selected (collectCandidates_single_good hmeta hstep)
        (selectLatest_single s d), loadSelected, hOpt]
      dsimp only
      rw [show readMetaFile d = .ok md by rw [readMetaFile, hmeta]]
      dsimp only
      rw [loadCursor_none_loader]
  · intro M O S is_final dl
    exact save_checkpoint_none M O S is_final (some dl)
  · intro M O S is_final
    exact save_checkpoint_none M O S is_final none

/-- Witness for C6: metadata carrying only `data_shard` yields no cursor,
the cursor is unchanged when a live loader is supplied, and both save
shapes. -/
theorem claim_C6_cursor_pairing_witness :
    ((⟨"cp6", none, none,
        some (.good ⟨some 2, some 1, none⟩)⟩ : CkptDir).metadata
      = some (.good ⟨some 2, some 1, none⟩) ∧
     (⟨some 2, some 1, none⟩ : MetaData).step = some 2 ∧
     load_checkpoint ⟨[]⟩ ⟨.leaf 0⟩
        (some [.dir ⟨"cp6", none, none, some (.good ⟨some 2, some 1, none⟩)⟩])
        (some demoDL) (fun _ => [])
       = .ok ⟨3, none, ⟨[]⟩, ⟨.leaf 0⟩, some demoDL⟩) ∧
    (((⟨3, none, ⟨[]⟩, ⟨.leaf 0⟩, some demoDL⟩ : LoadResult).cursor ≠ none ↔
        (⟨some 2, some 1, none⟩ : MetaData).data_shard ≠ none ∧
        (⟨some 2, some 1, none⟩ : MetaData).data_position ≠ none) ∧
     (∃ r₀, load_checkpoint ⟨[]⟩ ⟨.leaf 0⟩
        (some [.dir ⟨"cp6", none, none, some (.good ⟨some 2, some 1, none⟩)⟩])
        none (fun _ => []) = .ok r₀ ∧
        r₀.cursor = (⟨3, none, ⟨[]⟩, ⟨.leaf 0⟩, some demoDL⟩ : LoadResult).cursor)) ∧
    save_checkpoint demoModel demoOpt 9 none true (some demoDL) =
      .ok (some [.dir ⟨checkpointName true 9, some demoModel.weights,
        some (pyDict (tree_flatten demoOpt.state)),
        some (.good ⟨some 9, some 2, some 100⟩)⟩]) ∧
    save_checkpoint demoModel demoOpt 9 none true none =
      .ok (some [.dir ⟨checkpointName true 9, some demoModel.weights,
        some (pyDict (tree_flatten demoOpt.state)),
        some (.good ⟨some 9, none, none⟩)⟩]) := by
  refine ⟨⟨rfl, rfl, rfl⟩, ⟨?_, ?_⟩, ?_, ?_⟩
  · exact (claim_C6_cursor_pairing.1 ⟨[]⟩ ⟨.leaf 0⟩ (fun _ => [])
      ⟨"cp6", none, none, some (.good ⟨some 2, some 1, none⟩)⟩
      ⟨some 2, some 1, none⟩ (some demoDL)
      ⟨3, none, ⟨[]⟩, ⟨.leaf 0⟩, some demoDL⟩ 2 rfl rfl rfl).1
  · exact claim_C6_cursor_pairing.2.1 ⟨[]⟩ ⟨.leaf 0⟩ (fun _ => [])
      ⟨"cp6", none, none, some (.good ⟨some 2, some 1, none⟩)⟩ demoDL
      ⟨3, none, ⟨[]⟩, ⟨.leaf 0⟩, some demoDL⟩ 2 ⟨some 2, some 1, none⟩ rfl rfl rfl
  · exact claim_C6_cursor_pairing.2.2.1 demoModel demoOpt 9 true demoDL
  · exact claim_C6_cursor_pairing.2.2.2 demoModel demoOpt 9 true

/-- C7: Live data-loader restore: when a live loader is supplied and the
selected metadata carries both `data_shard` and `data_position`, a
successful load leaves the loader with its current shard and position set to
the recorded values and its token buffer re-loaded, through `load_tokens`,
from the shard at that index of the loader's shard-file list. -/
theorem claim_C7_live_loader (m₀ : Model) (o₀ : Optimizer)
    (lt : String → Tokens) (d : CkptDir) (md : MetaData) (s ds dp : Int)
    (dl : DataLoader) (file : String) (r : LoadResult)
    (hmeta : d.metadata = some (.good md)) (hstep : md.step = some s)
    (hds : md.data_shard = some ds) (hdp : md.data_position = some dp)
    (hidx : pyIndex dl.shards ds = .ok file)
    (hload : load_checkpoint m₀ o₀ (some [.dir d]) (some dl) lt = .ok r) :
    r.data_loader = some { dl with current_shard := ds, current_position := dp,
                                   tokens := lt file } ∧
    r.cursor = some ⟨ds, dp⟩ := by
  have hres : restoreLoader lt dl ds dp
      = .ok { dl with current_shard := ds, current_position := dp, tokens := lt file } := by
    rw [restoreLoader, hidx]
  have hcur : loadCursor lt (some dl) md
      = .ok (some ⟨ds, dp⟩,
          some { dl with current_shard := ds, current_position := dp, tokens := lt file }) := by
    rw [loadCursor, hds, hdp]
    dsimp only
    rw [hres]
  rw [load_checkpoint_selected (collectCandidates_single_good hmeta hstep)
    (selectLatest_single s d), loadSelected] at hload
  rcases hOpt : loadOptimizerState o₀ d with e | opt <;> rw [hOpt] at hload
  · cases hload
  · dsimp only at hload
    rw [show readMetaFile d = .ok md by rw [readMetaFile, hmeta]] at hload
    dsimp only at hload
    rw [hcur] at hload
    dsimp only at hload
    injection hload with h2
    rw [← h2]
    exact ⟨rfl, rfl⟩

/-- Witness for C7: restoring shard 2, position 100 into the demo loader,
with `load_tokens` returning `[7]` for every file. -/
theorem claim_C7_live_loader_witness :
    ((⟨"cp7", some [("w", 9)], none,
        some (.good ⟨some 3, some 2, some 100⟩)⟩ : CkptDir).metadata
      = some (.good ⟨some 3, some 2, some 100⟩) ∧
     (⟨some 3, some 2, some 100⟩ : MetaData).step = some 3 ∧
     pyIndex demoDL.shards 2 = .ok "s2" ∧
     load_checkpoint ⟨[]⟩ ⟨.leaf 0⟩
        (some [.dir ⟨"cp7", some [("w", 9)], none,
          some (.good ⟨some 3, some 2, some 100⟩)⟩])
        (some demoDL) (fun _ => [7])
       = .ok ⟨4, some ⟨2, 100⟩, ⟨[("w", 9)]⟩, ⟨.leaf 0⟩,
           some ⟨2, 100, ["s0", "s1", "s2"], [7]⟩⟩) ∧
    ((⟨4, some ⟨2, 100⟩, ⟨[("w", 9)]⟩, ⟨.leaf 0⟩,
        some ⟨2, 100, ["s0", "s1", "s2"], [7]⟩⟩ : LoadResult).data_loader
      = some { demoDL with current_shard := 2, current_position := 100, tokens := [7] } ∧
     (⟨4, some ⟨2, 100⟩, ⟨[("w", 9)]⟩, ⟨.leaf 0⟩,
        some ⟨2, 100, ["s0", "s1", "s2"], [7]⟩⟩ : LoadResult).cursor
      = some ⟨2, 100⟩) := by
  refine ⟨⟨rfl, rfl, rfl, rfl⟩, ?_⟩
  exact claim_C7_live_loader ⟨[]⟩ ⟨.leaf 0⟩ (fun _ => [7])
    ⟨"cp7", some [("w", 9)], none, some (.good ⟨some 3, some 2, some 100⟩)⟩
    ⟨some 3, some 2, some 100⟩ 3 2 100 demoDL "s2"
    ⟨4, some ⟨2, 100⟩, ⟨[("w", 9)]⟩, ⟨.leaf 0⟩,
      some ⟨2, 100, ["s0", "s1", "s2"], [7]⟩⟩ rfl rfl rfl rfl rfl rfl

/-- The possible prefixes of a four-element list. -/
theorem prefix_of_four {α : Type} {a b c d : α} (p q : List α)
    (h : [a, b, c, d] = p ++ q) :
    p = [] ∨ p = [a] ∨ p = [a, b] ∨ p = [a, b, c] ∨ p = [a, b, c, d] := by
  rcases p with _ | ⟨x1, p⟩
  · left; rfl
  rw [List.cons_append] at h
  injection h with h1 h
  subst h1
  rcases p with _ | ⟨x2, p⟩
  · right; left; rfl
  rw [List.cons_append] at h
  injection h with h1 h
  subst h1
  rcases p with _ | ⟨x3, p⟩
  · right; right; left; rfl
  rw [List.cons_append] at h
  injection h with h1 h
  subst h1
  rcases p with _ | ⟨x4, p⟩
  · right; right; right; left; rfl
  rw [List.cons_append] at h
  injection h with h1 h
  subst h1
  rcases p with _ | ⟨x5, p⟩
  · right; right; right; right; rfl
  rw [List.cons_append] at h
  cases h

/-- C8: Metadata-last write ordering: `save_checkpoint` is exactly the save
script run in source order; in every split of that script, a prefix
containing the metadata write already contains the model-weights write and
the optimizer-state write; and running any metadata-free prefix on a fresh
root (a crash before the metadata write) leaves a filesystem on which
`load_checkpoint` finds nothing: it returns `(0, none)` with the model and
optimizer untouched. -/
theorem claim_C8_metadata_last (M : Model) (O : Optimizer) (S : Int)
    (is_final : Bool) (dl : Option DataLoader) :
    (∀ fs : FS, save_checkpoint M O S fs is_final dl =
      runOps fs (saveScript M O S is_final dl)) ∧
    (∀ p q, saveScript M O S is_final dl = p ++ q →
      (∃ nm md, SaveOp.write nm (.metadata md) ∈ p) →
      SaveOp.write (checkpointName is_final S) (.model_weights M.weights) ∈ p ∧
      SaveOp.write (checkpointName is_final S)
        (.optimizer_state (pyDict (tree_flatten O.state))) ∈ p) ∧
    (∀ p q (m₀ : Model) (o₀ : Optimizer) (dlArg : Option DataLoader)
       (lt : String → Tokens), saveScript M O S is_final dl = p ++ q →
      (∀ nm md, SaveOp.write nm (.metadata md) ∉ p) →
      ∃ fs' : FS, runOps none p = .ok fs' ∧
        load_checkpoint m₀ o₀ fs' dlArg lt = .ok ⟨0, none, m₀, o₀, dlArg⟩) := by
  refine ⟨fun _ => rfl, ?_, ?_⟩
  · intro p q hpq hmeta
    obtain ⟨nm, md, hin⟩ := hmeta
    rw [saveScript] at hpq
    rcases prefix_of_four p q hpq with hp | hp | hp | hp | hp <;> subst hp
    · cases hin
    · simp at hin
    · simp at hin
    · simp at hin
    · simp
  · intro p q m₀ o₀ dlArg lt hpq hnometa
    rw [saveScript] at hpq
    rcases prefix_of_four p q hpq with hp | hp | hp | hp | hp <;> subst hp
    · exact ⟨none, rfl, rfl⟩
    · refine ⟨some [.dir ⟨checkpointName is_final S, none, none, none⟩], ?_, rfl⟩
      simp [runOps, runOp, makedirs, Except.map]
    · refine ⟨some [.dir ⟨checkpointName is_final S, some M.weights, none, none⟩],
        ?_, rfl⟩
      simp [runOps, runOp, makedirs, writeArtifact, setArtifact, entryName,
        Except.map]
    · refine ⟨some [.dir ⟨checkpointName is_final S, some M.weights,
        some (pyDict (tree_flatten O.state)), none⟩], ?_, rfl⟩
      simp [runOps, runOp, makedirs, writeArtifact, setArtifact, entryName,
        Except.map]
    · exact absurd (by simp : SaveOp.write (checkpointName is_final S)
        (.metadata (savedMetaData S dl)) ∈ _)
        (hnometa (checkpointName is_final S) (savedMetaData S dl))

/-- Witness for C8: the concrete script for a step-5 save; the ordering
conjunct applied to the full script, and the crash conjunct applied to the
three-operation prefix that stops just before the metadata write. -/
theorem claim_C8_metadata_last_witness :
    (saveScript demoModel demoOpt 5 false none =
      [SaveOp.mkdir (checkpointName false 5),
       SaveOp.write (checkpointName false 5) (.model_weights demoModel.weights),
       SaveOp.write (checkpointName false 5)
         (.optimizer_state (pyDict (tree_flatten demoOpt.state)))] ++
      [SaveOp.write (checkpointName false 5) (.metadata (savedMetaData 5 none))] ∧
     (∀ nm md, SaveOp.write nm (.metadata md) ∉
       [SaveOp.mkdir (checkpointName false 5),
        SaveOp.write (checkpointName false 5) (.model_weights demoModel.weights),
        SaveOp.write (checkpointName false 5)
          (.optimizer_state (pyDict (tree_flatten demoOpt.state)))])) ∧
    (∃ fs' : FS, runOps none
        [SaveOp.mkdir (checkpointName false 5),
         SaveOp.write (checkpointName false 5) (.model_weights demoModel.weights),
         SaveOp.write (checkpointName false 5)
           (.optimizer_state (pyDict (tree_flatten demoOpt.state)))] = .ok fs' ∧
      load_checkpoint ⟨[]⟩ ⟨.leaf 0⟩ fs' none (fun _ => []) =
        .ok ⟨0, none, ⟨[]⟩, ⟨.leaf 0⟩, none⟩) ∧
    (SaveOp.write (checkpointName false 5) (.model_weights demoModel.weights) ∈
        saveScript demoModel demoOpt 5 false none ∧
     SaveOp.write (checkpointName false 5)
        (.optimizer_state (pyDict (tree_flatten demoOpt.state))) ∈
        saveScript demoModel demoOpt 5 false none) := by
  refine ⟨⟨rfl, ?_⟩, ?_, ?_⟩
  · intro nm md
    simp
  · exact (claim_C8_metadata_last demoModel demoOpt 5 false none).2.2
      _ _ ⟨[]⟩ ⟨.leaf 0⟩ none (fun _ => []) rfl (by intro nm md; simp)
  · have h := (claim_C8_metadata_last demoModel demoOpt 5 false none).2.1
      (saveScript demoModel demoOpt 5 false none) [] (by simp)
      ⟨checkpointName false 5, savedMetaData 5 none, by rw [saveScript]; simp⟩
    exact h

/-- C9: Idempotent re-write: saving twice at the same step does not fail on
the second call (directory creation tolerates the existing directory), and
afterwards the checkpoint directory holds the second call's artifacts. -/
theorem claim_C9_idempotent (M1 M2 : Model) (O1 O2 : Optimizer) (S : Int)
    (dl1 dl2 : Option DataLoader) :
    ∃ fs₁ : FS, save_checkpoint M1 O1 S none false dl1 = .ok fs₁ ∧
      save_checkpoint M2 O2 S fs₁ false dl2 =
        .ok (some [.dir ⟨checkpointName false S, some M2.weights,
          some (pyDict (tree_flatten O2.state)),
          some (.good (savedMetaData S dl2))⟩]) := by
  refine ⟨_, save_checkpoint_none M1 O1 S false dl1, ?_⟩
  exact save_checkpoint_existing M2 O2 S false dl2
    ⟨checkpointName false S, some M1.weights,
      some (pyDict (tree_flatten O1.state)),
      some (.good (savedMetaData S dl1))⟩ rfl

/-- C10: Deterministic tie-break: whenever the loader's selection returns a
candidate, that candidate occurs in the scanned list, every candidate before
it has a strictly smaller recorded step, and no candidate anywhere has a
larger one — i.e. the stable descending sort picks the first candidate, in
enumeration order, whose step is maximal. -/
theorem claim_C10_tie_break (cs : List (Int × CkptDir)) (s : Int) (d : CkptDir)
    (h : selectLatest cs = some (s, d)) :
    ∃ pre post, cs = pre ++ (s, d) :: post ∧
      (∀ c ∈ pre, c.1 < s) ∧ ∀ c ∈ cs, c.1 ≤ s :=
  selectLatest_decomp cs s d h

/-- Witness for C10: candidates at steps 3, 7, 5, 7 — the first of the two
step-7 candidates is selected. -/
theorem claim_C10_tie_break_witness :
    selectLatest [(3, demoDirAt "a" 3 1), (7, demoDirAt "b" 7 2),
      (5, demoDirAt "c" 5 3), (7, demoDirAt "d" 7 4)]
      = some (7, demoDirAt "b" 7 2) ∧
    ∃ pre post : List (Int × CkptDir),
      ([(3, demoDirAt "a" 3 1), (7, demoDirAt "b" 7 2),
        (5, demoDirAt "c" 5 3), (7, demoDirAt "d" 7 4)] : List (Int × CkptDir))
      = pre ++ (7, demoDirAt "b" 7 2) :: post ∧
      (∀ c ∈ pre, c.1 < 7) ∧
      ∀ c ∈ ([(3, demoDirAt "a" 3 1), (7, demoDirAt "b" 7 2),
        (5, demoDirAt "c" 5 3), (7, demoDirAt "d" 7 4)] : List (Int × CkptDir)),
        c.1 ≤ 7 :=
  ⟨rfl, claim_C10_tie_break
    [(3, demoDirAt "a" 3 1), (7, demoDirAt "b" 7 2),
      (5, demoDirAt "c" 5 3), (7, demoDirAt "d" 7 4)]
    7 (demoDirAt "b" 7 2) rfl⟩

end Ckpt
